import Mathlib

/-!
Verification development for the SLOG deterministic transaction pipeline.

Each definition in this file is a shallow embedding of a function of the
repository, translated from the C++ sources:
  * `LockState`, `DeterministicLockManager` —
    src/module/scheduler_components/deterministic_lock_manager.cpp
  * `SimpleRemasterManager` — src/unnamed/part_002 (simple_remaster_manager.cpp)
  * `TPCCExecution.execute` — src/unnamed/part_010 (TPC-C execution dispatcher)
  * `Sequencer` lock-only decomposition — src/module/sequencer.cpp
  * `nextBatchId` / `nextTxnId` — src/module/sequencer.cpp, src/unnamed/part_004
  * `AsyncLog` — src/common/async_log.h
Keys, transaction ids and machine ids are opaque identifiers in the sources
and are modelled as natural numbers.
-/

namespace Slog

abbrev TxnId := Nat
abbrev Key := Nat

/-- Lock modes, as in `common/types.h` usage of `LockMode`. -/
inductive LockMode
  | UNLOCKED
  | READ
  | WRITE
deriving DecidableEq

/-- One lock-table entry (`LockState` in deterministic_lock_manager).
`holders_` and `waiters_` are `unordered_set<TxnId>` (modelled as `Finset`),
`waiter_queue_` is a `deque<pair<TxnId, LockMode>>` (modelled as a list whose
head is the front of the deque). -/
structure LockState where
  mode : LockMode := .UNLOCKED
  holders : Finset TxnId := ∅
  waiters : Finset TxnId := ∅
  waiterQueue : List (TxnId × LockMode) := []
deriving DecidableEq

/-- `LockState::AcquireReadLock` (deterministic_lock_manager.cpp, lines 9-31). -/
def LockState.acquireReadLock (txnId : TxnId) (s : LockState) : Bool × LockState :=
  match s.mode with
  | .UNLOCKED =>
      (true, { s with holders := insert txnId s.holders, mode := .READ })
  | .READ =>
      if s.waiters = ∅ then
        (true, { s with holders := insert txnId s.holders })
      else
        (false, { s with waiters := insert txnId s.waiters,
                         waiterQueue := s.waiterQueue ++ [(txnId, LockMode.READ)] })
  | .WRITE =>
      (false, { s with waiters := insert txnId s.waiters,
                       waiterQueue := s.waiterQueue ++ [(txnId, LockMode.READ)] })

/-- `LockState::AcquireWriteLock` (deterministic_lock_manager.cpp, lines 33-47).
Note: line 42 of the source pushes `make_pair(txn_id, LockMode::READ)` — the
waiting WRITE request is tagged `READ` in the waiter queue. The embedding
reproduces this faithfully. -/
def LockState.acquireWriteLock (txnId : TxnId) (s : LockState) : Bool × LockState :=
  match s.mode with
  | .UNLOCKED =>
      (true, { s with holders := insert txnId s.holders, mode := .WRITE })
  | .READ =>
      (false, { s with waiters := insert txnId s.waiters,
                       waiterQueue := s.waiterQueue ++ [(txnId, LockMode.READ)] })
  | .WRITE =>
      (false, { s with waiters := insert txnId s.waiters,
                       waiterQueue := s.waiterQueue ++ [(txnId, LockMode.READ)] })

/-- `LockState::IsQueued` (deterministic_lock_manager.cpp, lines 49-51). -/
def LockState.isQueued (txnId : TxnId) (s : LockState) : Bool :=
  txnId ∈ s.holders ∨ txnId ∈ s.waiters

/-- The do/while loop in `LockState::Release` (lines 87-92): repeatedly pop the
front of the waiter queue while it is a READ entry, making each popped
transaction a holder and removing it from the waiter set. The C++ loop runs
its body once before testing; it is entered only when the front is a READ
entry, so popping the maximal READ prefix is the same computation. -/
def promoteReads : List (TxnId × LockMode) → Finset TxnId → Finset TxnId →
    List (TxnId × LockMode) × Finset TxnId × Finset TxnId
  | [], hs, ws => ([], hs, ws)
  | (t, m) :: rest, hs, ws =>
      if m = LockMode.READ then
        promoteReads rest (insert t hs) (ws.erase t)
      else
        ((t, m) :: rest, hs, ws)

/-- The transaction ids of the maximal READ prefix of the waiter queue, in
queue order: these are the entries the promotion loop of
`LockState::Release` pops. -/
def readPrefixIds : List (TxnId × LockMode) → List TxnId
  | [] => []
  | (t, m) :: rest =>
      if m = LockMode.READ then t :: readPrefixIds rest else []

/-- `LockState::Release` (deterministic_lock_manager.cpp, lines 53-104).
Returns the new holders as a deduplicated list in queue order: the C++
returns `holders_` (an `unordered_set`), which at that point contains
exactly the promoted transactions because the holder set was empty before
the promotion, so the two agree as sets. The `waiterQueue = []` sub-case
with a non-empty waiter set dereferences the front of an empty deque in C++
(undefined behaviour); it is unreachable from the empty entry (the waiter
set is always the set of queued transaction ids) and the embedding returns
the state unchanged there. -/
def LockState.release (txnId : TxnId) (s : LockState) : List TxnId × LockState :=
  if txnId ∉ s.holders then
    ([], { s with waiterQueue := s.waiterQueue.filter (fun p => p.1 ≠ txnId),
                  waiters := s.waiters.erase txnId })
  else
    let holders' := s.holders.erase txnId
    if holders' ≠ ∅ then
      ([], { s with holders := holders' })
    else if s.waiters = ∅ then
      ([], { s with holders := holders', mode := .UNLOCKED })
    else
      match s.waiterQueue with
      | [] => ([], { s with holders := holders' })
      | (w, m) :: rest =>
          if m = LockMode.READ then
            let (q', hs', ws') := promoteReads ((w, m) :: rest) holders' s.waiters
            ((readPrefixIds ((w, m) :: rest)).dedup,
             { mode := .READ, holders := hs', waiters := ws', waiterQueue := q' })
          else
            ([w], { mode := .WRITE, holders := insert w holders',
                    waiters := s.waiters.erase w, waiterQueue := rest })

/-- A transaction as seen by the lock manager: its id and its read/write sets
(`read_set()` / `write_set()` key views; values are irrelevant to locking). -/
structure Txn where
  id : TxnId
  readSet : List Key
  writeSet : List Key
deriving DecidableEq

/-- The configuration interface used by the lock manager:
`KeyIsInLocalPartition`. -/
structure Config where
  localKey : Key → Bool

/-- `DeterministicLockManager::ExtractKeys` (lines 199-215): read-set keys in
the local partition that are not also written get a READ lock, local
write-set keys get a WRITE lock. -/
def extractKeys (cfg : Config) (txn : Txn) : List (Key × LockMode) :=
  (txn.readSet.filter
      (fun k => cfg.localKey k ∧ k ∉ txn.writeSet)).map (fun k => (k, LockMode.READ))
    ++ (txn.writeSet.filter (fun k => cfg.localKey k)).map (fun k => (k, LockMode.WRITE))

/-- `DeterministicLockManager` state. The C++ lock table is an
`unordered_map<Key, LockState>` whose `operator[]` default-constructs absent
entries; it is modelled as a total function defaulting to the empty entry.
The eviction of entries in `ReleaseLocks` (lines 187-191) only removes
entries whose mode is `UNLOCKED`, which the invariant lemmas below show are
exactly the default `LockState`, so dropping them does not change the map
this function represents. `num_locks_waited_`'s header is absent from the
sources; the counter is modelled as an integer (erasing an entry and reading
an absent entry as 0 coincide with setting/reading the value 0, which is how
the C++ `operator[]`/`erase` pair behaves). -/
structure LockManager where
  lockTable : Key → LockState
  numLocksWaited : TxnId → Int

def LockManager.init : LockManager :=
  { lockTable := fun _ => {}, numLocksWaited := fun _ => 0 }

/-- `DeterministicLockManager::RegisterTxn` (lines 109-123). -/
def LockManager.registerTxn (cfg : Config) (txn : Txn) (m : LockManager) :
    Bool × LockManager :=
  let keys := extractKeys cfg txn
  if keys = [] then
    (false, m)
  else
    let c := m.numLocksWaited txn.id + keys.length
    if c = 0 then
      (true, { m with numLocksWaited := Function.update m.numLocksWaited txn.id 0 })
    else
      (false, { m with numLocksWaited := Function.update m.numLocksWaited txn.id c })

/-- One iteration of the key loop in `DeterministicLockManager::AcquireLocks`
(lines 132-152): if the txn is not already queued on the key, try to acquire
the lock in the given mode and decrement the outstanding count on success.
(`ExtractKeys` never yields `UNLOCKED`; the C++ `default` case is fatal.) -/
def LockManager.acquireOneKey (txnId : TxnId) (m : LockManager)
    (kp : Key × LockMode) : LockManager :=
  let s := m.lockTable kp.1
  if s.isQueued txnId then m
  else
    let (ok, s') :=
      match kp.2 with
      | .READ => s.acquireReadLock txnId
      | .WRITE => s.acquireWriteLock txnId
      | .UNLOCKED => (false, s)
    let m' := { m with lockTable := Function.update m.lockTable kp.1 s' }
    if ok then
      { m' with numLocksWaited :=
          Function.update m'.numLocksWaited txnId (m'.numLocksWaited txnId - 1) }
    else m'

/-- `DeterministicLockManager::AcquireLocks` (lines 125-159). -/
def LockManager.acquireLocks (cfg : Config) (txn : Txn) (m : LockManager) :
    Bool × LockManager :=
  let keys := extractKeys cfg txn
  if keys = [] then
    (false, m)
  else
    let m' := keys.foldl (fun m kp => m.acquireOneKey txn.id kp) m
    if m'.numLocksWaited txn.id = 0 then
      (true, { m' with numLocksWaited := Function.update m'.numLocksWaited txn.id 0 })
    else
      (false, m')

/-- `DeterministicLockManager::RegisterTxnAndAcquireLocks` (lines 161-164). -/
def LockManager.registerTxnAndAcquireLocks (cfg : Config) (txn : Txn)
    (m : LockManager) : Bool × LockManager :=
  let (_, m') := m.registerTxn cfg txn
  m'.acquireLocks cfg txn

/-- The inner loop of `DeterministicLockManager::ReleaseLocks` (lines 179-185):
every new holder's outstanding count is decremented, and holders whose count
reaches zero are collected as ready. The C++ iterates an `unordered_set` in
unspecified order; the updates for distinct holders commute, so iterating
the deduplicated queue-order list is the same computation. -/
def LockManager.applyNewHolders (newHolders : List TxnId)
    (acc : Finset TxnId × LockManager) : Finset TxnId × LockManager :=
  newHolders.foldl
    (fun (acc : Finset TxnId × LockManager) h =>
      let (ready, m) := acc
      let c := m.numLocksWaited h - 1
      let m' := { m with numLocksWaited := Function.update m.numLocksWaited h c }
      if c = 0 then (insert h ready, m') else (ready, m'))
    acc

/-- One iteration of the key loop in `DeterministicLockManager::ReleaseLocks`
(lines 172-192): skip keys outside the local partition (the line-174
re-check, though `ExtractKeys` already filters on it), release the lock and
process the new holders. -/
def LockManager.releaseOneKey (cfg : Config) (txnId : TxnId)
    (acc : Finset TxnId × LockManager) (kp : Key × LockMode) :
    Finset TxnId × LockManager :=
  if cfg.localKey kp.1 then
    let (newHolders, s') := ((acc.2).lockTable kp.1).release txnId
    let m₁ := { acc.2 with
      lockTable := Function.update (acc.2).lockTable kp.1 s' }
    LockManager.applyNewHolders newHolders (acc.1, m₁)
  else acc

/-- `DeterministicLockManager::ReleaseLocks` (lines 166-197). -/
def LockManager.releaseLocks (cfg : Config) (txn : Txn) (m : LockManager) :
    Finset TxnId × LockManager :=
  let keys := extractKeys cfg txn
  let (ready, m') := keys.foldl (LockManager.releaseOneKey cfg txn.id) (∅, m)
  (ready, { m' with numLocksWaited := Function.update m'.numLocksWaited txn.id 0 })

/-! ### Claim C1: write-after-read scenario (scenario 5 of the spec) -/

/-- A configuration in which every key is in the local partition, as in the
single-partition lock manager tests. -/
def cfgAllLocal : Config := ⟨fun _ => true⟩

/-- Scenario of claim C1: txn 1 reads key 0, txn 2 writes key 0,
txn 3 reads key 0. -/
def c1Txn1 : Txn := ⟨1, [0], []⟩

def c1Txn2 : Txn := ⟨2, [], [0]⟩

def c1Txn3 : Txn := ⟨3, [0], []⟩

def c1Step1 : Bool × LockManager :=
  LockManager.init.registerTxnAndAcquireLocks cfgAllLocal c1Txn1

def c1Step2 : Bool × LockManager :=
  c1Step1.2.registerTxnAndAcquireLocks cfgAllLocal c1Txn2

def c1Step3 : Bool × LockManager :=
  c1Step2.2.registerTxnAndAcquireLocks cfgAllLocal c1Txn3

def c1Release1 : Finset TxnId × LockManager :=
  c1Step3.2.releaseLocks cfgAllLocal c1Txn1

def c1Release2 : Finset TxnId × LockManager :=
  c1Release1.2.releaseLocks cfgAllLocal c1Txn2

/-- Claim C1 (status: code_bug). In the scenario read(1), write(2), read(3) on
one key, txn 1 acquires the READ lock immediately and txns 2 and 3 queue
(txn 3 does not join the READ holders) — as the claim states. But after
`ReleaseLocks(txn1)` the code promotes BOTH txn 2 and txn 3 (the waiting
WRITE request of txn 2 was enqueued tagged `READ` by
`LockState::AcquireWriteLock`, so the promotion loop treats the whole queue
as a READ run), and after `ReleaseLocks(txn2)` no further transaction
becomes ready — the claim says exactly txn 2, then exactly txn 3. This
theorem evaluates the embedded code at the failing input. -/
theorem c1_write_waiter_promoted_with_readers :
    c1Step1.1 = true ∧ c1Step2.1 = false ∧ c1Step3.1 = false ∧
    3 ∈ (c1Step3.2.lockTable 0).waiters ∧ 3 ∉ (c1Step3.2.lockTable 0).holders ∧
    c1Release1.1.card = 2 ∧ 2 ∈ c1Release1.1 ∧ 3 ∈ c1Release1.1 ∧
    c1Release2.1 = ∅ := by
  decide

/-! ### Claim C3: lock-table entry invariants -/

/-- State reached from the empty lock entry by
`AcquireReadLock(1); AcquireWriteLock(2); Release(1)`. -/
def c3State : LockState :=
  ((((({} : LockState).acquireReadLock 1).2.acquireWriteLock 2).2).release 1).2

/-- Claim C3 (status: code_bug). The claim's invariant "if mode = READ then
every current holder acquired the lock via a READ request" fails on the
code: after `AcquireReadLock(1); AcquireWriteLock(2); Release(1)` the entry
has mode READ and holder set {2}, yet transaction 2 only ever issued a
WRITE request. (`AcquireWriteLock` enqueues the waiting writer tagged
`READ`, deterministic_lock_manager.cpp line 42, so the release promotion
installs it as a READ holder.) This theorem evaluates the embedded code on
that three-call sequence. -/
theorem c3_read_mode_holder_acquired_write :
    c3State.mode = LockMode.READ ∧ c3State.holders.card = 1 ∧
    2 ∈ c3State.holders := by
  decide

/-! ### Claim C7: RegisterTxn with no local keys -/

/-- `ExtractKeys` yields nothing when no read- or write-set key is local. -/
theorem extractKeys_eq_nil (cfg : Config) (txn : Txn)
    (hr : ∀ k ∈ txn.readSet, ¬cfg.localKey k)
    (hw : ∀ k ∈ txn.writeSet, ¬cfg.localKey k) :
    extractKeys cfg txn = [] := by
  unfold extractKeys
  rw [List.filter_eq_nil_iff.mpr, List.filter_eq_nil_iff.mpr] <;> simp_all

/-- Claim C7 (status: confirmed). For every transaction none of whose
read-set or write-set keys lies in the local partition, `RegisterTxn`
returns false (deterministic_lock_manager.cpp lines 111-115: the extracted
key list is empty and the function returns early). -/
theorem c7_register_txn_no_local_keys_false (cfg : Config) (txn : Txn)
    (m : LockManager)
    (hr : ∀ k ∈ txn.readSet, ¬cfg.localKey k)
    (hw : ∀ k ∈ txn.writeSet, ¬cfg.localKey k) :
    (m.registerTxn cfg txn).1 = false := by
  unfold LockManager.registerTxn
  rw [extractKeys_eq_nil cfg txn hr hw]
  simp

/-- Witness for C7 at a concrete input: a configuration in which no key is
local and a transaction reading key 1 and writing key 2. -/
theorem c7_register_txn_no_local_keys_false_witness :
    (LockManager.registerTxn ⟨fun _ => false⟩ ⟨5, [1], [2]⟩ LockManager.init).1
      = false :=
  c7_register_txn_no_local_keys_false ⟨fun _ => false⟩ ⟨5, [1], [2]⟩
    LockManager.init (by decide) (by decide)

/-! ### Claim C2: TPC-C execution outcome (src/unnamed/part_010) -/

/-- Transaction statuses (proto `TransactionStatus`). -/
inductive TxnStatus
  | NOT_STARTED
  | COMMITTED
  | ABORTED
deriving DecidableEq

/-- The part of a transaction `TPCCExecution::Execute` manipulates: the code
(`code().procedures()`, each procedure a list of string arguments), the
status, the abort reason, and whether `ApplyWrites` ran. -/
structure TpccTxn where
  procedures : List (List String)
  status : TxnStatus := .NOT_STARTED
  abortReason : String := ""
  writesApplied : Bool := false
deriving DecidableEq

/-- Sets status ABORTED with the given reason and returns
(the early-return paths of `TPCCExecution::Execute`). -/
def TpccTxn.abortWith (txn : TpccTxn) (reason : String) : TpccTxn :=
  { txn with status := .ABORTED, abortReason := reason }

/-- The tail of `TPCCExecution::Execute` (part_010 lines 133-139). Note the
source reads `if (result) { ... COMMITTED ...; ApplyWrites(...); } { ...
ABORTED ... }` — the second block is NOT an else branch, so it always runs;
the embedding reproduces this faithfully. -/
def tpccFinalize (result : Bool) (txn : TpccTxn) : TpccTxn :=
  let txn₁ :=
    if result then
      { txn with status := .COMMITTED, writesApplied := true }
    else txn
  { txn₁ with status := .ABORTED, abortReason := "Aborted by a TPC-C txn" }

/-- `TPCCExecution::Execute` (part_010 lines 14-140). The bodies of the five
TPC-C procedures live in `execution/tpcc/*`, outside the given sources;
their success is abstracted by the oracle `run`, applied to the procedure
list (the parsed arguments are a function of that list). `stoi`/`stoll`
parsing of the argument strings is not modelled (malformed numerals throw
in C++; the claim concerns procedures that execute). `kTotalItems` is the
`tpcc::StockLevelTxn::kTotalItems` constant, passed as a parameter. -/
def tpccExecute (kTotalItems : Nat) (run : List (List String) → Bool)
    (txn : TpccTxn) : TpccTxn :=
  match txn.procedures with
  | [] => txn.abortWith "Invalid code"
  | args :: _ =>
    match args with
    | [] => txn.abortWith "Invalid code"
    | txnName :: _ =>
      if txnName = "new_order" then
        if args.length ≠ 7 ∨ txn.procedures.length ≠ 11 then
          txn.abortWith "new_order: Invalid number of arguments"
        else if ¬ (List.range 10).all
            (fun i => (txn.procedures.getD (i + 1) []).length = 4) then
          txn.abortWith "new_order: Invalid number of arguments for order line"
        else
          tpccFinalize (run txn.procedures) txn
      else if txnName = "payment" then
        if args.length ≠ 9 then
          txn.abortWith "payment: Invalid number of arguments"
        else
          tpccFinalize (run txn.procedures) txn
      else if txnName = "order_status" then
        if args.length ≠ 5 then
          txn.abortWith "order_status: Invalid number of arguments"
        else
          tpccFinalize (run txn.procedures) txn
      else if txnName = "deliver" then
        if args.length ≠ 7 then
          txn.abortWith "deliver: Invalid number of arguments"
        else
          tpccFinalize (run txn.procedures) txn
      else if txnName = "stock_level" then
        if args.length ≠ 4 ∨ txn.procedures.length ≠ 2 then
          txn.abortWith "stock_level: Invalid number of arguments"
        else if (txn.procedures.getD 1 []).length ≠ kTotalItems then
          txn.abortWith "stock_level: Invalid number of items"
        else
          tpccFinalize (run txn.procedures) txn
      else
        txn.abortWith "Unknown procedure name"

/-- A well-formed `payment` transaction (9 arguments). -/
def c2PaymentTxn : TpccTxn :=
  { procedures := [["payment", "1", "1", "1", "1", "1", "500", "7", "1"]] }

/-- Claim C2 (status: code_bug). The claim says a successfully executing
procedure yields status COMMITTED, and ABORTED with reason "Aborted by a
TPC-C txn" exactly when the procedure fails. In the source the abort block
after `if (result) { ... }` is not guarded by `else` (part_010 line 136),
so even when the procedure succeeds — here a valid `payment` whose
execution returns true — the writes are applied and the status is then
unconditionally overwritten to ABORTED. This theorem evaluates the embedded
code at that input. -/
theorem c2_tpcc_success_still_aborted :
    (tpccExecute 20 (fun _ => true) c2PaymentTxn).status = TxnStatus.ABORTED ∧
    (tpccExecute 20 (fun _ => true) c2PaymentTxn).writesApplied = true ∧
    (tpccExecute 20 (fun _ => true) c2PaymentTxn).abortReason
      = "Aborted by a TPC-C txn" := by
  refine ⟨rfl, rfl, rfl⟩

/-! ### Claim C9: batch-id and txn-id generation -/

/-- `Sequencer::NextBatchId` (sequencer.cpp lines 215-218) and
`Server::NextTxnId` (part_004 lines 236-239) perform the same computation:
pre-increment a per-instance counter and return
`counter * kMaxNumMachines + local_machine_id`. The counters are machine
integers; the claim excludes arithmetic overflow, so they are modelled as
naturals. Returns the new counter together with the generated id. -/
def nextGlobalId (kMaxNumMachines localMachineId counter : Nat) : Nat × Nat :=
  let counter' := counter + 1
  (counter', counter' * kMaxNumMachines + localMachineId)

/-- Claim C9 (status: confirmed). Ids are `counter · kMaxNumMachines +
machine_id` with the counter incremented on each call; on one machine with
machine id below `kMaxNumMachines`, later calls give strictly larger ids,
and two machines with distinct machine ids below `kMaxNumMachines` can
never generate the same id, whatever their counters. -/
theorem c9_id_uniqueness (M mid mid₁ mid₂ c c₁ c₂ : Nat)
    (hmid : mid < M) (h₁ : mid₁ < M) (h₂ : mid₂ < M) :
    ((nextGlobalId M mid c).2 < (nextGlobalId M mid (c + 1)).2) ∧
    (mid₁ ≠ mid₂ → (nextGlobalId M mid₁ c₁).2 ≠ (nextGlobalId M mid₂ c₂).2) := by
  constructor
  · have hM : 0 < M := Nat.lt_of_le_of_lt (Nat.zero_le mid) hmid
    simp only [nextGlobalId]
    have : (c + 1) * M < (c + 1 + 1) * M := by
      exact (Nat.mul_lt_mul_right hM).mpr (Nat.lt_succ_self _)
    omega
  · intro hne heq
    simp only [nextGlobalId] at heq
    rcases Nat.lt_trichotomy (c₁ + 1) (c₂ + 1) with hlt | hEq | hgt
    · have : (c₁ + 1) * M + M ≤ (c₂ + 1) * M := by
        have := Nat.succ_le_of_lt hlt
        calc (c₁ + 1) * M + M = (c₁ + 1 + 1) * M := by ring
        _ ≤ (c₂ + 1) * M := Nat.mul_le_mul_right M this
      omega
    · rw [hEq] at heq
      omega
    · have : (c₂ + 1) * M + M ≤ (c₁ + 1) * M := by
        have := Nat.succ_le_of_lt hgt
        calc (c₂ + 1) * M + M = (c₂ + 1 + 1) * M := by ring
        _ ≤ (c₁ + 1) * M := Nat.mul_le_mul_right M this
      omega

/-- Witness for C9 with `kMaxNumMachines = 1000` (the value of
`MAX_NUM_MACHINES` in the sources) and machine ids 3 and 4. -/
theorem c9_id_uniqueness_witness :
    ((nextGlobalId 1000 3 0).2 < (nextGlobalId 1000 3 1).2) ∧
    (3 ≠ 4 → (nextGlobalId 1000 3 5).2 ≠ (nextGlobalId 1000 4 9).2) :=
  c9_id_uniqueness 1000 3 3 4 0 5 9 (by decide) (by decide) (by decide)

/-! ### Claim C10: AsyncLog (src/common/async_log.h) -/

/-- `AsyncLog<T>` (async_log.h): a sparse position → item map (the
`unordered_map` is modelled as a function defaulting to `none`) plus the
cursor `next_`, a `uint32_t`. -/
structure AsyncLog (T : Type) where
  log : Nat → Option T
  next : Nat

/-- The `AsyncLog(start_from)` constructor. -/
def AsyncLog.start (T : Type) (startFrom : Nat := 0) : AsyncLog T :=
  { log := fun _ => none, next := startFrom }

/-- `AsyncLog::Insert` (async_log.h lines 13-23). Throwing
`std::runtime_error` is modelled as `Except.error`. -/
def AsyncLog.insert {T : Type} (s : AsyncLog T) (position : Nat) (item : T) :
    Except String (AsyncLog T) :=
  if position < s.next then
    .ok s
  else if (s.log position).isSome then
    .error "Log position has already been taken"
  else
    .ok { s with log := fun p => if p = position then some item else s.log p }

/-- `AsyncLog::HasNext` (async_log.h lines 25-27). -/
def AsyncLog.hasNext {T : Type} (s : AsyncLog T) : Bool :=
  (s.log s.next).isSome

/-- `AsyncLog::Next` (async_log.h lines 33-41): throws when nothing is stored
at the cursor; otherwise removes and returns that item and increments the
`uint32_t` cursor (`next_++` wraps modulo 2^32). -/
def AsyncLog.takeNext {T : Type} (s : AsyncLog T) :
    Except String (T × AsyncLog T) :=
  match s.log s.next with
  | none => .error "Next item does not exist"
  | some v =>
      .ok (v, { log := fun p => if p = s.next then none else s.log p,
                next := (s.next + 1) % 2 ^ 32 })

/-- Claim C10 (status: confirmed). `Insert` leaves the log unchanged below the
cursor; `Insert` at or above the cursor on an occupied position throws, so a
stored item is never overwritten (any successful or failed `Insert`
preserves every existing binding); `Next` throws exactly when nothing is
stored at the cursor, and otherwise removes and returns the stored item and
increments the cursor by one (the `uint32_t` increment; it is exactly `+ 1`
whenever `next + 1 < 2^32`). -/
theorem c10_async_log_behavior {T : Type} :
    (∀ (s : AsyncLog T) (pos : Nat) (item : T),
        pos < s.next → s.insert pos item = .ok s) ∧
    (∀ (s : AsyncLog T) (pos : Nat) (item : T),
        ¬ pos < s.next → (s.log pos).isSome →
        s.insert pos item = .error "Log position has already been taken") ∧
    (∀ (s s' : AsyncLog T) (pos p : Nat) (item v : T),
        s.insert pos item = .ok s' → s.log p = some v → s'.log p = some v) ∧
    (∀ s : AsyncLog T, s.log s.next = none →
        s.takeNext = .error "Next item does not exist") ∧
    (∀ (s : AsyncLog T) (v : T), s.log s.next = some v →
        ∃ s' : AsyncLog T, s.takeNext = .ok (v, s') ∧
          s'.log s.next = none ∧
          (∀ p : Nat, p ≠ s.next → s'.log p = s.log p) ∧
          s'.next = (s.next + 1) % 2 ^ 32 ∧
          (s.next + 1 < 2 ^ 32 → s'.next = s.next + 1)) := by
  refine ⟨?_, ?_, ?_, ?_, ?_⟩
  · intro s pos item h
    simp [AsyncLog.insert, h]
  · intro s pos item h hocc
    simp [AsyncLog.insert, h, hocc]
  · intro s s' pos p item v hins hbind
    by_cases hlt : pos < s.next
    · simp only [AsyncLog.insert, if_pos hlt] at hins
      cases hins
      exact hbind
    · by_cases hocc : (s.log pos).isSome
      · simp [AsyncLog.insert, hlt, hocc] at hins
      · have hnone : s.log pos = none := by
          cases hh : s.log pos
          · rfl
          · rw [hh] at hocc
            simp at hocc
        simp only [AsyncLog.insert, if_neg hlt, hnone] at hins
        simp only [Option.isSome_none, Bool.false_eq_true, if_false,
          Except.ok.injEq] at hins
        subst hins
        by_cases hp : p = pos
        · subst hp
          rw [hbind] at hnone
          simp at hnone
        · simp [hp, hbind]
  · intro s h
    simp [AsyncLog.takeNext, h]
  · intro s v h
    refine ⟨{ log := fun p => if p = s.next then none else s.log p,
              next := (s.next + 1) % 2 ^ 32 }, ?_, ?_, ?_, rfl, ?_⟩
    · simp [AsyncLog.takeNext, h]
    · simp
    · intro p hp
      simp [hp]
    · intro hlt
      simpa using Nat.mod_eq_of_lt hlt

/-- A concrete log over `Nat` holding item 42 at position 5, cursor 5. -/
def c10WitLog : AsyncLog Nat :=
  { log := fun p => if p = 5 then some 42 else none, next := 5 }

/-- Witness for C10 at the concrete log `c10WitLog`. -/
theorem c10_async_log_behavior_witness :
    ((AsyncLog.start Nat 7).insert 3 9 = .ok (AsyncLog.start Nat 7)) ∧
    c10WitLog.insert 5 9 = .error "Log position has already been taken" ∧
    (∃ s', c10WitLog.takeNext = .ok (42, s') ∧ s'.next = 6) := by
  refine ⟨c10_async_log_behavior.1 _ 3 9 (by decide), ?_, ?_⟩
  · exact c10_async_log_behavior.2.1 c10WitLog 5 9 (by decide) (by simp [c10WitLog])
  · obtain ⟨s', h₁, -, -, -, h₅⟩ :=
      c10_async_log_behavior.2.2.2.2 c10WitLog 42 (by simp [c10WitLog])
    exact ⟨s', h₁, h₅ (by norm_num [c10WitLog])⟩

/-! ### Claim C8: lock-only decomposition of a multi-home batch
(`Sequencer::ProcessMultiHomeBatch`, sequencer.cpp lines 135-204) -/

/-- Transaction types (proto `TransactionType`). -/
inductive TxnType
  | SINGLE_HOME
  | MULTI_HOME
  | LOCK_ONLY
deriving DecidableEq

/-- Per-key master metadata (proto `MasterMetadata`): master region id and
remaster counter. -/
structure MasterMetadata where
  master : Nat
  counter : Nat
deriving DecidableEq

/-- The fields of a `Transaction` used by the sequencer: id, type, read and
write sets (key/value pairs) and the `master_metadata` map (modelled as an
association list with unique keys, looked up with `List.lookup`). -/
structure SeqTxn where
  id : TxnId
  txnType : TxnType
  readSet : List (Key × String)
  writeSet : List (Key × String)
  metadata : List (Key × MasterMetadata)
deriving DecidableEq

/-- `metadata.at(key).master() == local_rep`: whether a key of the txn is
mastered by the given region. A missing key makes the C++ `.at` throw; the
claim's theorem assumes every read/write key has metadata. -/
def SeqTxn.masterIs (txn : SeqTxn) (k : Key) (rep : Nat) : Bool :=
  match txn.metadata.lookup k with
  | some md => md.master = rep
  | none => false

/-- The lock-only sub-transaction built for one multi-home transaction by
`ProcessMultiHomeBatch` (sequencer.cpp lines 150-190, without the
`REMASTER_PROTOCOL_COUNTERLESS` conditional block): the read-set and
write-set entries whose master is the local region, the matching metadata
entries (inserted while walking the read set then the write set, a
duplicate key keeping its first insertion), the parent's id, and type
LOCK_ONLY. -/
def lockOnlyTxn (localRep : Nat) (txn : SeqTxn) : SeqTxn :=
  let keys :=
    ((txn.readSet.map Prod.fst ++ txn.writeSet.map Prod.fst).filter
      (fun k => txn.masterIs k localRep)).dedup
  { id := txn.id
    txnType := .LOCK_ONLY
    readSet := txn.readSet.filter (fun kv => txn.masterIs kv.1 localRep)
    writeSet := txn.writeSet.filter (fun kv => txn.masterIs kv.1 localRep)
    metadata := keys.filterMap (fun k => (txn.metadata.lookup k).map (fun md => (k, md))) }

/-- `Sequencer::ProcessMultiHomeBatch`: a batch whose type is not MULTI_HOME
is rejected (logged and dropped); otherwise each txn's lock-only sub-txn is
appended to the current single-home batch when its read or write set is
non-empty, and the multi-home batch is sent to
`MakeMachineId(local_rep, part)` for every partition `part` of the local
region (machine ids are modelled as (replica, partition) pairs). Returns
the new single-home batch and the list of destinations. -/
def processMultiHomeBatch (numPartitions localRep : Nat)
    (batchType : TxnType) (shBatch : List SeqTxn) (mhBatch : List SeqTxn) :
    List SeqTxn × List (Nat × Nat) :=
  if batchType ≠ TxnType.MULTI_HOME then
    (shBatch, [])
  else
    (mhBatch.foldl
      (fun acc txn =>
        let lo := lockOnlyTxn localRep txn
        if lo.readSet ≠ [] ∨ lo.writeSet ≠ [] then acc ++ [lo] else acc)
      shBatch,
     (List.range numPartitions).map (fun part => (localRep, part)))

/-- The fold of `processMultiHomeBatch` is appending the non-empty lock-only
sub-transactions in batch order. -/
theorem processMultiHomeBatch_foldl (localRep : Nat) (sh : List SeqTxn)
    (mh : List SeqTxn) :
    mh.foldl
      (fun acc txn =>
        let lo := lockOnlyTxn localRep txn
        if lo.readSet ≠ [] ∨ lo.writeSet ≠ [] then acc ++ [lo] else acc)
      sh
    = sh ++ (mh.map (lockOnlyTxn localRep)).filter
        (fun lo => lo.readSet ≠ [] ∨ lo.writeSet ≠ []) := by
  induction mh generalizing sh with
  | nil => simp
  | cons txn rest ih =>
      simp only [List.foldl_cons, List.map_cons, List.filter_cons]
      by_cases h : (lockOnlyTxn localRep txn).readSet ≠ [] ∨
          (lockOnlyTxn localRep txn).writeSet ≠ []
      · rw [if_pos h, ih, if_pos (by exact decide_eq_true h)]
        simp
      · rw [if_neg h, ih, if_neg (by simpa using h)]

/-- Claim C8 (status: confirmed). For a MULTI_HOME batch: every produced
lock-only sub-txn contains exactly the parent's read-set and write-set
entries whose master equals the local region, exactly the metadata entries
of those keys, the parent's id and type LOCK_ONLY; it is appended to the
single-home batch iff its read or write set is non-empty (in batch order);
and the batch is replicated to every partition of the local region. -/
theorem c8_lock_only_decomposition (numPartitions localRep : Nat)
    (batchType : TxnType) (sh mh : List SeqTxn)
    (hty : batchType = TxnType.MULTI_HOME)
    (_hmeta : ∀ txn ∈ mh, ∀ k ∈ txn.readSet.map Prod.fst ++ txn.writeSet.map Prod.fst,
        (txn.metadata.lookup k).isSome) :
    (∀ txn ∈ mh,
      (∀ kv, kv ∈ (lockOnlyTxn localRep txn).readSet ↔
          kv ∈ txn.readSet ∧ txn.masterIs kv.1 localRep) ∧
      (∀ kv, kv ∈ (lockOnlyTxn localRep txn).writeSet ↔
          kv ∈ txn.writeSet ∧ txn.masterIs kv.1 localRep) ∧
      (∀ k md, (k, md) ∈ (lockOnlyTxn localRep txn).metadata ↔
          ((k ∈ txn.readSet.map Prod.fst ∨ k ∈ txn.writeSet.map Prod.fst) ∧
            txn.masterIs k localRep ∧ txn.metadata.lookup k = some md)) ∧
      (lockOnlyTxn localRep txn).id = txn.id ∧
      (lockOnlyTxn localRep txn).txnType = TxnType.LOCK_ONLY) ∧
    processMultiHomeBatch numPartitions localRep batchType sh mh
      = (sh ++ (mh.map (lockOnlyTxn localRep)).filter
            (fun lo => lo.readSet ≠ [] ∨ lo.writeSet ≠ []),
         (List.range numPartitions).map (fun part => (localRep, part))) := by
  constructor
  · intro txn htxn
    refine ⟨?_, ?_, ?_, rfl, rfl⟩
    · intro kv
      simp [lockOnlyTxn, List.mem_filter]
    · intro kv
      simp [lockOnlyTxn, List.mem_filter]
    · intro k md
      simp only [lockOnlyTxn, List.mem_filterMap]
      constructor
      · rintro ⟨k', hk', hsome⟩
        rw [Option.map_eq_some'] at hsome
        obtain ⟨md', hmd', heq⟩ := hsome
        simp only [Prod.mk.injEq] at heq
        obtain ⟨rfl, rfl⟩ := heq
        rw [List.mem_dedup, List.mem_filter] at hk'
        exact ⟨by simpa using hk'.1, by simpa using hk'.2, hmd'⟩
      · rintro ⟨hk, hmaster, hmd⟩
        refine ⟨k, ?_, ?_⟩
        · rw [List.mem_dedup, List.mem_filter]
          exact ⟨by simpa using hk, by simpa using hmaster⟩
        · rw [Option.map_eq_some']
          exact ⟨md, hmd, rfl⟩
  · rw [processMultiHomeBatch, if_neg (by simp [hty])]
    rw [processMultiHomeBatch_foldl]

/-- Witness for C8: one multi-home transaction reading keys 1 (master 0) and
2 (master 1), writing key 2, processed at region 1 of a 2-partition
deployment. -/
def c8Parent : SeqTxn :=
  { id := 77
    txnType := .MULTI_HOME
    readSet := [(1, "a"), (2, "c")]
    writeSet := [(2, "b")]
    metadata := [(1, ⟨0, 0⟩), (2, ⟨1, 3⟩)] }

theorem c8_lock_only_decomposition_witness :
    ((2, "b") ∈ (lockOnlyTxn 1 c8Parent).writeSet ↔
      (2, "b") ∈ c8Parent.writeSet ∧ c8Parent.masterIs 2 1) ∧
    processMultiHomeBatch 2 1 TxnType.MULTI_HOME [] [c8Parent]
      = ([lockOnlyTxn 1 c8Parent], [(1, 0), (1, 1)]) := by
  have h := c8_lock_only_decomposition 2 1 TxnType.MULTI_HOME [] [c8Parent]
    rfl (by decide)
  refine ⟨(h.1 c8Parent (by simp)).2.1 (2, "b"), ?_⟩
  rw [h.2]
  decide

/-! ### Claims C4 and C5: SimpleRemasterManager (src/unnamed/part_002) -/

/-- `VerifyMasterResult` (remaster_manager.h line 17). -/
inductive VerifyMasterResult
  | VALID
  | WAITING
  | ABORT
deriving DecidableEq

/-- `TxnReplicaId`: opaque identifier of a transaction replica held in
`all_txns_`. -/
abbrev TxnReplicaId := Nat

/-- The view of a `TransactionHolder` used by the remaster manager:
`KeysInPartition()` (a vector of key/lock-mode pairs) and the transaction's
`master_metadata` map (an association list with unique keys). -/
structure RMTxn where
  keysInPartition : List (Key × LockMode)
  masterMetadata : List (Key × MasterMetadata)
deriving DecidableEq

/-- The storage interface used: `storage->Read(key, record)` yields the
record's metadata when the key is found. -/
abbrev RMStorage := Key → Option MasterMetadata

/-- `record.metadata.counter` of a key, defaulting to 0 for a key not in
storage ("default to 0 for a new key", part_002 line 55). -/
def storageCounter (storage : RMStorage) (k : Key) : Nat :=
  match storage k with
  | some r => r.counter
  | none => 0

/-- `SimpleRemasterManager::CheckCounters` (part_002 lines 46-71), iterating
the key list. For each key: `txn_master_metadata.at(key)` (throws when
absent, modelled as `Except.error`); then the storage read — for a found
key the `CHECK` on master equality runs before the counter comparison and
a mismatch is fatal; then the first key whose counter differs from the
storage counter decides ABORT (behind) or WAITING (ahead); VALID when the
loop finishes. -/
def checkCounters (storage : RMStorage) (md : List (Key × MasterMetadata)) :
    List (Key × LockMode) → Except String VerifyMasterResult
  | [] => .ok .VALID
  | (key, _) :: rest =>
      match md.lookup key with
      | none => .error "master metadata missing for key"
      | some e =>
          match storage key with
          | some r =>
              if e.master ≠ r.master then .error "masters do not match"
              else if e.counter < r.counter then .ok .ABORT
              else if e.counter > r.counter then .ok .WAITING
              else checkCounters storage md rest
          | none =>
              if e.counter > 0 then .ok .WAITING
              else checkCounters storage md rest

/-- The outcome of one iteration of the `CheckCounters` loop on a single
key. -/
inductive KeyCheck
  | fatalMissing
  | fatalMismatch
  | abortK
  | waitingK
  | equalK
deriving DecidableEq

def keyCheck (storage : RMStorage) (md : List (Key × MasterMetadata))
    (k : Key) : KeyCheck :=
  match md.lookup k with
  | none => .fatalMissing
  | some e =>
      match storage k with
      | some r =>
          if e.master ≠ r.master then .fatalMismatch
          else if e.counter < r.counter then .abortK
          else if e.counter > r.counter then .waitingK
          else .equalK
      | none => if e.counter > 0 then .waitingK else .equalK

/-- The blocked queues: `blocked_queue_`, an `unordered_map` from local-log
machine id to a FIFO deque, modelled as an association list iterated in
list order (the C++ iteration order over the hash map is unspecified; the
properties proved below do not depend on it). -/
abbrev BlockedQueue := List (Nat × List TxnReplicaId)

/-- `blocked_queue_[llid]` as read: absent entries read as empty. -/
def getQ (q : BlockedQueue) (llid : Nat) : List TxnReplicaId :=
  (q.lookup llid).getD []

/-- `blocked_queue_[llid].push_back(t)`: appends, creating the entry if
absent. -/
def pushQ : BlockedQueue → Nat → TxnReplicaId → BlockedQueue
  | [], llid, t => [(llid, [t])]
  | (id, queue) :: rest, llid, t =>
      if id = llid then (id, queue ++ [t]) :: rest
      else (id, queue) :: pushQ rest llid t

/-- `SimpleRemasterManager::VerifyMaster` (part_002 lines 12-44). `allTxns`
is the `all_txns_` map (`at` is modelled as a total function; the claims
only involve ids it holds). -/
def verifyMaster (storage : RMStorage) (allTxns : TxnReplicaId → RMTxn)
    (q : BlockedQueue) (trid : TxnReplicaId) :
    Except String (VerifyMasterResult × BlockedQueue) :=
  let txn := allTxns trid
  if txn.keysInPartition = [] then .ok (.VALID, q)
  else
    match txn.masterMetadata with
    | [] => .ok (.VALID, q)
    | (_, e₀) :: _ =>
        let llid := e₀.master
        if getQ q llid ≠ [] then .ok (.WAITING, pushQ q llid trid)
        else
          match checkCounters storage txn.masterMetadata txn.keysInPartition with
          | .error msg => .error msg
          | .ok r =>
              if r = .WAITING then .ok (.WAITING, pushQ q llid trid)
              else .ok (r, q)

/-- Key 1 is ahead (declared 2, stored 1), key 2 is behind (declared 0,
stored 1); key 1 comes first in `KeysInPartition`. -/
def c4Storage : RMStorage := fun k =>
  if k = 1 then some ⟨0, 1⟩ else if k = 2 then some ⟨0, 1⟩ else none

def c4Txn : RMTxn :=
  { keysInPartition := [(1, LockMode.READ), (2, LockMode.WRITE)]
    masterMetadata := [(1, ⟨0, 2⟩), (2, ⟨0, 0⟩)] }

/-- Counterexample for claim C4: the transaction has a local key (key 2)
whose declared counter 0 is behind the storage counter 1, so the claim
requires ABORT; but `CheckCounters` returns at the first differing key
(key 1, ahead), so `VerifyMaster` returns WAITING (and queues the txn). -/
theorem c4_counterexample_first_key_decides :
    verifyMaster c4Storage (fun _ => c4Txn) [] 0
      = .ok (.WAITING, [(0, [0])]) ∧
    c4Txn.masterMetadata.lookup 2 = some ⟨0, 0⟩ ∧
    c4Storage 2 = some ⟨0, 1⟩ ∧ (0 : Nat) < 1 := by
  refine ⟨rfl, by decide, by decide, by decide⟩

/-- One step of the `CheckCounters` loop, classified by `keyCheck`. -/
theorem checkCounters_cons (storage : RMStorage)
    (md : List (Key × MasterMetadata)) (k : Key) (m : LockMode)
    (rest : List (Key × LockMode)) :
    checkCounters storage md ((k, m) :: rest)
      = match keyCheck storage md k with
        | .fatalMissing => .error "master metadata missing for key"
        | .fatalMismatch => .error "masters do not match"
        | .abortK => .ok .ABORT
        | .waitingK => .ok .WAITING
        | .equalK => checkCounters storage md rest := by
  show (match md.lookup k with
      | none => (Except.error "master metadata missing for key" :
          Except String VerifyMasterResult)
      | some e =>
          match storage k with
          | some r =>
              if e.master ≠ r.master then Except.error "masters do not match"
              else if e.counter < r.counter then Except.ok VerifyMasterResult.ABORT
              else if e.counter > r.counter then Except.ok VerifyMasterResult.WAITING
              else checkCounters storage md rest
          | none =>
              if e.counter > 0 then Except.ok VerifyMasterResult.WAITING
              else checkCounters storage md rest) = _
  unfold keyCheck
  cases md.lookup k with
  | none => rfl
  | some e =>
      cases storage k with
      | none => by_cases h : e.counter > 0 <;> simp [h]
      | some r =>
          by_cases h1 : e.master ≠ r.master
          · simp [h1]
          · by_cases h2 : e.counter < r.counter
            · simp [h1, h2]
            · by_cases h3 : e.counter > r.counter <;> simp [h1, h2, h3]

/-- `checkCounters` returns VALID exactly when every key checks equal. -/
theorem checkCounters_valid_iff (storage : RMStorage)
    (md : List (Key × MasterMetadata)) (keys : List (Key × LockMode)) :
    checkCounters storage md keys = .ok .VALID ↔
      ∀ kp ∈ keys, keyCheck storage md kp.1 = .equalK := by
  induction keys with
  | nil => simp [checkCounters]
  | cons kp rest ih =>
      obtain ⟨k, m⟩ := kp
      rw [checkCounters_cons]
      cases h : keyCheck storage md k <;> simp [h, ih]

/-- The scan of `CheckCounters` stops at the key list's first non-equal key
with outcome `kc`. -/
def firstDecidedBy (storage : RMStorage) (md : List (Key × MasterMetadata))
    (keys : List (Key × LockMode)) (kc : KeyCheck) : Prop :=
  ∃ pre kp post, keys = pre ++ kp :: post ∧
    (∀ kq ∈ pre, keyCheck storage md kq.1 = .equalK) ∧
    keyCheck storage md kp.1 = kc

/-- `checkCounters` returns ABORT (resp. WAITING) exactly when the first key
whose check is not "equal" checks behind (resp. ahead). -/
theorem checkCounters_first (storage : RMStorage)
    (md : List (Key × MasterMetadata)) (keys : List (Key × LockMode))
    (kc : KeyCheck) (r : VerifyMasterResult)
    (hkc : kc = .abortK ∧ r = .ABORT ∨ kc = .waitingK ∧ r = .WAITING) :
    checkCounters storage md keys = .ok r ↔ firstDecidedBy storage md keys kc := by
  induction keys with
  | nil =>
      simp only [checkCounters]
      constructor
      · intro h
        cases h
        rcases hkc with ⟨-, h⟩ | ⟨-, h⟩ <;> cases h
      · rintro ⟨pre, kp, post, h, -, -⟩
        cases pre <;> simp at h
  | cons kp rest ih =>
      obtain ⟨k, m⟩ := kp
      rw [checkCounters_cons]
      cases h : keyCheck storage md k with
      | fatalMissing =>
          simp only
          constructor
          · intro hh
            cases hh
          · rintro ⟨pre, ⟨kq1, kq2⟩, post, heq, hpre, hkq⟩
            cases pre with
            | nil =>
                simp only [List.nil_append, List.cons.injEq, Prod.mk.injEq] at heq
                obtain ⟨⟨rfl, rfl⟩, rfl⟩ := heq
                rw [h] at hkq
                rcases hkc with ⟨rfl, -⟩ | ⟨rfl, -⟩ <;> cases hkq
            | cons p pre' =>
                simp only [List.cons_append, List.cons.injEq] at heq
                obtain ⟨h1, -⟩ := heq
                subst h1
                have h' : keyCheck storage md k = .equalK := hpre (k, m) (by simp)
                rw [h'] at h
                cases h
      | fatalMismatch =>
          simp only
          constructor
          · intro hh
            cases hh
          · rintro ⟨pre, ⟨kq1, kq2⟩, post, heq, hpre, hkq⟩
            cases pre with
            | nil =>
                simp only [List.nil_append, List.cons.injEq, Prod.mk.injEq] at heq
                obtain ⟨⟨rfl, rfl⟩, rfl⟩ := heq
                rw [h] at hkq
                rcases hkc with ⟨rfl, -⟩ | ⟨rfl, -⟩ <;> cases hkq
            | cons p pre' =>
                simp only [List.cons_append, List.cons.injEq] at heq
                obtain ⟨h1, -⟩ := heq
                subst h1
                have h' : keyCheck storage md k = .equalK := hpre (k, m) (by simp)
                rw [h'] at h
                cases h
      | abortK =>
          simp only
          constructor
          · intro hh
            rcases hkc with ⟨rfl, rfl⟩ | ⟨rfl, rfl⟩
            · exact ⟨[], (k, m), rest, rfl, by simp, h⟩
            · cases hh
          · rintro ⟨pre, ⟨kq1, kq2⟩, post, heq, hpre, hkq⟩
            cases pre with
            | nil =>
                simp only [List.nil_append, List.cons.injEq, Prod.mk.injEq] at heq
                obtain ⟨⟨rfl, rfl⟩, rfl⟩ := heq
                rw [h] at hkq
                rcases hkc with ⟨rfl, rfl⟩ | ⟨rfl, rfl⟩
                · rfl
                · cases hkq
            | cons p pre' =>
                simp only [List.cons_append, List.cons.injEq] at heq
                obtain ⟨h1, -⟩ := heq
                subst h1
                have h' : keyCheck storage md k = .equalK := hpre (k, m) (by simp)
                rw [h'] at h
                cases h
      | waitingK =>
          simp only
          constructor
          · intro hh
            rcases hkc with ⟨rfl, rfl⟩ | ⟨rfl, rfl⟩
            · cases hh
            · exact ⟨[], (k, m), rest, rfl, by simp, h⟩
          · rintro ⟨pre, ⟨kq1, kq2⟩, post, heq, hpre, hkq⟩
            cases pre with
            | nil =>
                simp only [List.nil_append, List.cons.injEq, Prod.mk.injEq] at heq
                obtain ⟨⟨rfl, rfl⟩, rfl⟩ := heq
                rw [h] at hkq
                rcases hkc with ⟨rfl, rfl⟩ | ⟨rfl, rfl⟩
                · cases hkq
                · rfl
            | cons p pre' =>
                simp only [List.cons_append, List.cons.injEq] at heq
                obtain ⟨h1, -⟩ := heq
                subst h1
                have h' : keyCheck storage md k = .equalK := hpre (k, m) (by simp)
                rw [h'] at h
                cases h
      | equalK =>
          simp only
          refine Iff.trans ih ?_
          constructor
          · rintro ⟨pre, kq, post, heq, hpre, hkq⟩
            refine ⟨(k, m) :: pre, kq, post, by rw [heq]; rfl, ?_, hkq⟩
            intro kq' hkq'
            rcases List.mem_cons.mp hkq' with rfl | hmem
            · exact h
            · exact hpre kq' hmem
          · rintro ⟨pre, ⟨kq1, kq2⟩, post, heq, hpre, hkq⟩
            cases pre with
            | nil =>
                simp only [List.nil_append, List.cons.injEq, Prod.mk.injEq] at heq
                obtain ⟨⟨rfl, rfl⟩, rfl⟩ := heq
                rw [h] at hkq
                rcases hkc with ⟨rfl, -⟩ | ⟨rfl, -⟩ <;> cases hkq
            | cons p pre' =>
                simp only [List.cons_append, List.cons.injEq] at heq
                obtain ⟨h1, h2⟩ := heq
                exact ⟨pre', (kq1, kq2), post, h2, fun kq' hkq' =>
                  hpre kq' (List.mem_cons_of_mem p hkq'), hkq⟩

/-- Claim C4, amended (status: corrected). With the transaction's home taken
from its first metadata entry: a non-empty home queue means the txn is
appended unconditionally and WAITING is returned; with an empty home queue
the result is that of `CheckCounters` (the txn being appended exactly when
it is WAITING); and `CheckCounters` is decided by the FIRST key of
`KeysInPartition` whose per-key check is not "equal" — ABORT when that
key's declared counter is behind the storage counter, WAITING when it is
ahead — with VALID exactly when every key checks equal (metadata present,
master matching the stored master for every key found in storage, counter
equal to the storage counter). -/
theorem c4_verify_master_amended (storage : RMStorage)
    (allTxns : TxnReplicaId → RMTxn) (q : BlockedQueue) (trid : TxnReplicaId)
    (k₀ : Key) (e₀ : MasterMetadata) (mdRest : List (Key × MasterMetadata))
    (hkeys : (allTxns trid).keysInPartition ≠ [])
    (hmd : (allTxns trid).masterMetadata = (k₀, e₀) :: mdRest) :
    (getQ q e₀.master ≠ [] →
      verifyMaster storage allTxns q trid = .ok (.WAITING, pushQ q e₀.master trid)) ∧
    (∀ r, getQ q e₀.master = [] →
      checkCounters storage (allTxns trid).masterMetadata
          (allTxns trid).keysInPartition = .ok r →
      verifyMaster storage allTxns q trid
        = .ok (r, if r = .WAITING then pushQ q e₀.master trid else q)) ∧
    (checkCounters storage (allTxns trid).masterMetadata
        (allTxns trid).keysInPartition = .ok .VALID ↔
      ∀ kp ∈ (allTxns trid).keysInPartition,
        keyCheck storage (allTxns trid).masterMetadata kp.1 = .equalK) ∧
    (checkCounters storage (allTxns trid).masterMetadata
        (allTxns trid).keysInPartition = .ok .ABORT ↔
      firstDecidedBy storage (allTxns trid).masterMetadata
        (allTxns trid).keysInPartition .abortK) ∧
    (checkCounters storage (allTxns trid).masterMetadata
        (allTxns trid).keysInPartition = .ok .WAITING ↔
      firstDecidedBy storage (allTxns trid).masterMetadata
        (allTxns trid).keysInPartition .waitingK) := by
  refine ⟨?_, ?_, checkCounters_valid_iff _ _ _,
    checkCounters_first _ _ _ _ _ (Or.inl ⟨rfl, rfl⟩),
    checkCounters_first _ _ _ _ _ (Or.inr ⟨rfl, rfl⟩)⟩
  · intro hq
    rw [verifyMaster, if_neg (by simpa using hkeys), hmd]
    simp only [if_pos hq]
  · intro r hq hcc
    rw [verifyMaster, if_neg (by simpa using hkeys), hmd]
    simp only [hq, ne_eq, not_true_eq_false, if_false]
    rw [hmd] at hcc
    rw [hcc]
    cases r <;> simp

/-- Storage for the C4 witness: key 1 has master 0 and counter 1. -/
def c4WitStorage : RMStorage := fun k => if k = 1 then some ⟨0, 1⟩ else none

/-- A transaction whose declared counter for key 1 is behind. -/
def c4WitTxn : RMTxn :=
  { keysInPartition := [(1, LockMode.READ)]
    masterMetadata := [(1, ⟨0, 0⟩)] }

/-- Witness for the amended C4: with an empty queue the behind transaction
gets ABORT and is not queued. -/
theorem c4_verify_master_amended_witness :
    verifyMaster c4WitStorage (fun _ => c4WitTxn) [] 0 = .ok (.ABORT, []) ∧
    checkCounters c4WitStorage c4WitTxn.masterMetadata c4WitTxn.keysInPartition
      = .ok .ABORT := by
  have h := c4_verify_master_amended c4WitStorage (fun _ => c4WitTxn) [] 0
    1 ⟨0, 0⟩ [] (by decide) rfl
  have hcc : checkCounters c4WitStorage c4WitTxn.masterMetadata
      c4WitTxn.keysInPartition = .ok .ABORT := by
    rw [h.2.2.2.1]
    exact ⟨[], (1, LockMode.READ), [], rfl, by simp, by decide⟩
  have := h.2.1 .ABORT (by decide) hcc
  simp only [reduceCtorEq, if_false] at this
  exact ⟨this, hcc⟩

/-- The recursion of `SimpleRemasterManager::TryToUnblock` (part_002 lines
95-120) restricted to the one queue it touches: evaluate the head's
counters; a WAITING head stops the walk; a VALID head goes to `unblocked`,
an ABORT head to `should_abort`, and in both cases the head is popped and
the newly exposed head re-evaluated. Returns the remaining queue and the
two result lists in evaluation order. -/
def processQueue (storage : RMStorage) (allTxns : TxnReplicaId → RMTxn) :
    List TxnReplicaId →
    Except String (List TxnReplicaId × List TxnReplicaId × List TxnReplicaId)
  | [] => .ok ([], [], [])
  | trid :: rest =>
      match checkCounters storage (allTxns trid).masterMetadata
          (allTxns trid).keysInPartition with
      | .error msg => .error msg
      | .ok .WAITING => .ok (trid :: rest, [], [])
      | .ok .VALID =>
          match processQueue storage allTxns rest with
          | .error msg => .error msg
          | .ok (q, u, a) => .ok (q, trid :: u, a)
      | .ok .ABORT =>
          match processQueue storage allTxns rest with
          | .error msg => .error msg
          | .ok (q, u, a) => .ok (q, u, trid :: a)

/-- Whether a transaction's `KeysInPartition` references a key (the inner
loop of `RemasterOccured`, part_002 lines 82-89). -/
def txnRefsKey (allTxns : TxnReplicaId → RMTxn) (trid : TxnReplicaId)
    (k : Key) : Bool :=
  (allTxns trid).keysInPartition.any (fun kp => kp.1 = k)

/-- `SimpleRemasterManager::RemasterOccured` (part_002 lines 73-93): walk
every blocked queue; when the head of a non-empty queue references the
remastered key, run `TryToUnblock` on that queue. The `remaster_counter`
argument is unused by the C++ body and kept for the signature. The result
lists concatenate the per-queue contributions in iteration order. -/
def remasterOccured (storage : RMStorage) (allTxns : TxnReplicaId → RMTxn)
    (remKey : Key) (remCounter : Nat) :
    BlockedQueue →
    Except String (BlockedQueue × List TxnReplicaId × List TxnReplicaId)
  | [] => .ok ([], [], [])
  | (llid, queue) :: restQ =>
      let step : Except String
          (List TxnReplicaId × List TxnReplicaId × List TxnReplicaId) :=
        match queue with
        | [] => .ok (queue, [], [])
        | h :: _ =>
            if txnRefsKey allTxns h remKey then processQueue storage allTxns queue
            else .ok (queue, [], [])
      match step with
      | .error msg => .error msg
      | .ok (q', u₁, a₁) =>
          match remasterOccured storage allTxns remKey remCounter restQ with
          | .error msg => .error msg
          | .ok (rest', u₂, a₂) => .ok ((llid, q') :: rest', u₁ ++ u₂, a₁ ++ a₂)

/-- A key whose per-key check is "equal" has metadata whose counter equals
the storage counter. -/
theorem keyCheck_equal_counter (storage : RMStorage)
    (md : List (Key × MasterMetadata)) (k : Key)
    (h : keyCheck storage md k = .equalK) :
    ∃ e, md.lookup k = some e ∧ e.counter = storageCounter storage k := by
  unfold keyCheck at h
  cases hl : md.lookup k with
  | none => rw [hl] at h; cases h
  | some e =>
      rw [hl] at h
      simp only at h
      refine ⟨e, rfl, ?_⟩
      cases hs : storage k with
      | none =>
          rw [hs] at h
          simp only at h
          have hc : ¬ e.counter > 0 := by
            intro hgt
            rw [if_pos hgt] at h
            cases h
          simp only [storageCounter, hs]
          omega
      | some r =>
          rw [hs] at h
          simp only at h
          by_cases h1 : e.master ≠ r.master
          · rw [if_pos h1] at h; cases h
          · rw [if_neg h1] at h
            by_cases h2 : e.counter < r.counter
            · rw [if_pos h2] at h; cases h
            · rw [if_neg h2] at h
              by_cases h3 : e.counter > r.counter
              · rw [if_pos h3] at h; cases h
              · simp only [storageCounter, hs]
                omega

/-- Properties of one `TryToUnblock` walk: every transaction it unblocks
checks VALID, every transaction it sends to `should_abort` checks ABORT,
and the remaining queue is a suffix of the original (heads are popped). -/
theorem processQueue_spec (storage : RMStorage) (allTxns : TxnReplicaId → RMTxn)
    (queue q' u a : List TxnReplicaId)
    (hrun : processQueue storage allTxns queue = .ok (q', u, a)) :
    (∀ t ∈ u, checkCounters storage (allTxns t).masterMetadata
        (allTxns t).keysInPartition = .ok .VALID) ∧
    (∀ t ∈ a, checkCounters storage (allTxns t).masterMetadata
        (allTxns t).keysInPartition = .ok .ABORT) ∧
    q'.IsSuffix queue := by
  induction queue generalizing q' u a with
  | nil =>
      simp only [processQueue] at hrun
      cases hrun
      exact ⟨by simp, by simp, List.nil_suffix⟩
  | cons trid rest ih =>
      simp only [processQueue] at hrun
      cases hcc : checkCounters storage (allTxns trid).masterMetadata
          (allTxns trid).keysInPartition with
      | error msg => rw [hcc] at hrun; cases hrun
      | ok r =>
          rw [hcc] at hrun
          cases r with
          | WAITING =>
              simp only at hrun
              cases hrun
              exact ⟨by simp, by simp, List.suffix_refl _⟩
          | VALID =>
              simp only at hrun
              cases hrec : processQueue storage allTxns rest with
              | error msg => rw [hrec] at hrun; cases hrun
              | ok res =>
                  obtain ⟨q₁, u₁, a₁⟩ := res
                  rw [hrec] at hrun
                  simp only at hrun
                  obtain ⟨hu, ha, hsuf⟩ := ih q₁ u₁ a₁ hrec
                  cases hrun
                  refine ⟨?_, ha, hsuf.trans (List.suffix_cons _ _)⟩
                  intro t ht
                  rcases List.mem_cons.mp ht with rfl | hmem
                  · exact hcc
                  · exact hu t hmem
          | ABORT =>
              simp only at hrun
              cases hrec : processQueue storage allTxns rest with
              | error msg => rw [hrec] at hrun; cases hrun
              | ok res =>
                  obtain ⟨q₁, u₁, a₁⟩ := res
                  rw [hrec] at hrun
                  simp only at hrun
                  obtain ⟨hu, ha, hsuf⟩ := ih q₁ u₁ a₁ hrec
                  cases hrun
                  refine ⟨hu, ?_, hsuf.trans (List.suffix_cons _ _)⟩
                  intro t ht
                  rcases List.mem_cons.mp ht with rfl | hmem
                  · exact hcc
                  · exact ha t hmem

/-- Claim C5 (status: confirmed). For `RemasterOccurred(k, c+1)` called once
storage holds counter c+1 for k: a queue whose head does not reference k is
left unchanged (only such heads are re-evaluated); every unblocked
transaction checked VALID and every should_abort transaction checked ABORT
(heads popped and the exposed head re-evaluated, per `processQueue`); each
queue is only ever popped from the front (the new queue is a suffix); and
no unblocked transaction declares a counter above c+1 for k — its declared
counter for k equals c+1 exactly. -/
theorem c5_remaster_occured_unblock (storage : RMStorage)
    (allTxns : TxnReplicaId → RMTxn) (remKey : Key) (c : Nat)
    (q₀ q' : BlockedQueue) (u a : List TxnReplicaId) (remCounter : Nat)
    (hrun : remasterOccured storage allTxns remKey remCounter q₀ = .ok (q', u, a))
    (hstor : storageCounter storage remKey = c + 1) :
    (∀ llid queue, (llid, queue) ∈ q₀ →
        (∀ h hs, queue = h :: hs → ¬ txnRefsKey allTxns h remKey) →
        (llid, queue) ∈ q') ∧
    (∀ t ∈ u, checkCounters storage (allTxns t).masterMetadata
        (allTxns t).keysInPartition = .ok .VALID) ∧
    (∀ t ∈ a, checkCounters storage (allTxns t).masterMetadata
        (allTxns t).keysInPartition = .ok .ABORT) ∧
    (∀ llid queue, (llid, queue) ∈ q₀ →
        ∃ queue', (llid, queue') ∈ q' ∧ queue'.IsSuffix queue) ∧
    (∀ t ∈ u, txnRefsKey allTxns t remKey →
        ∀ e, (allTxns t).masterMetadata.lookup remKey = some e →
          e.counter = c + 1) := by
  have main :
      (∀ llid queue, (llid, queue) ∈ q₀ →
          (∀ h hs, queue = h :: hs → ¬ txnRefsKey allTxns h remKey) →
          (llid, queue) ∈ q') ∧
      (∀ t ∈ u, checkCounters storage (allTxns t).masterMetadata
          (allTxns t).keysInPartition = .ok .VALID) ∧
      (∀ t ∈ a, checkCounters storage (allTxns t).masterMetadata
          (allTxns t).keysInPartition = .ok .ABORT) ∧
      (∀ llid queue, (llid, queue) ∈ q₀ →
          ∃ queue', (llid, queue') ∈ q' ∧ queue'.IsSuffix queue) := by
    induction q₀ generalizing q' u a with
    | nil =>
        simp only [remasterOccured] at hrun
        cases hrun
        exact ⟨by simp, by simp, by simp, by simp⟩
    | cons entry restQ ih =>
        obtain ⟨llid₀, queue₀⟩ := entry
        simp only [remasterOccured] at hrun
        revert hrun
        cases queue₀ with
        | nil =>
            simp only
            cases hrec : remasterOccured storage allTxns remKey remCounter restQ with
            | error msg => intro hrun; cases hrun
            | ok res =>
                obtain ⟨rest', u₂, a₂⟩ := res
                intro hrun
                simp only at hrun
                obtain ⟨h1, h2, h3, h4⟩ := ih rest' u₂ a₂ hrec
                cases hrun
                refine ⟨?_, by simpa using h2, by simpa using h3, ?_⟩
                · intro llid queue hmem hnr
                  rcases List.mem_cons.mp hmem with heq | hmem'
                  · exact List.mem_cons.mpr (Or.inl heq)
                  · exact List.mem_cons.mpr (Or.inr (h1 llid queue hmem' hnr))
                · intro llid queue hmem
                  rcases List.mem_cons.mp hmem with heq | hmem'
                  · cases heq
                    exact ⟨[], List.mem_cons.mpr (Or.inl rfl), List.suffix_refl _⟩
                  · obtain ⟨queue', hq', hsuf⟩ := h4 llid queue hmem'
                    exact ⟨queue', List.mem_cons.mpr (Or.inr hq'), hsuf⟩
        | cons h₀ hs₀ =>
            simp only
            by_cases href : txnRefsKey allTxns h₀ remKey
            · rw [if_pos href]
              cases hpq : processQueue storage allTxns (h₀ :: hs₀) with
              | error msg => intro hrun; cases hrun
              | ok res =>
                  obtain ⟨q₁, u₁, a₁⟩ := res
                  simp only
                  cases hrec : remasterOccured storage allTxns remKey remCounter restQ with
                  | error msg => intro hrun; cases hrun
                  | ok res₂ =>
                      obtain ⟨rest', u₂, a₂⟩ := res₂
                      intro hrun
                      simp only at hrun
                      obtain ⟨hu₁, ha₁, hsuf₁⟩ :=
                        processQueue_spec storage allTxns _ _ _ _ hpq
                      obtain ⟨h1, h2, h3, h4⟩ := ih rest' u₂ a₂ hrec
                      cases hrun
                      refine ⟨?_, ?_, ?_, ?_⟩
                      · intro llid queue hmem hnr
                        rcases List.mem_cons.mp hmem with heq | hmem'
                        · exfalso
                          cases heq
                          exact (hnr h₀ hs₀ rfl) href
                        · exact List.mem_cons.mpr (Or.inr (h1 llid queue hmem' hnr))
                      · intro t ht
                        rcases List.mem_append.mp ht with hmem | hmem
                        · exact hu₁ t hmem
                        · exact h2 t hmem
                      · intro t ht
                        rcases List.mem_append.mp ht with hmem | hmem
                        · exact ha₁ t hmem
                        · exact h3 t hmem
                      · intro llid queue hmem
                        rcases List.mem_cons.mp hmem with heq | hmem'
                        · cases heq
                          exact ⟨q₁, List.mem_cons.mpr (Or.inl rfl), hsuf₁⟩
                        · obtain ⟨queue', hq', hsuf⟩ := h4 llid queue hmem'
                          exact ⟨queue', List.mem_cons.mpr (Or.inr hq'), hsuf⟩
            · rw [if_neg href]
              simp only
              cases hrec : remasterOccured storage allTxns remKey remCounter restQ with
              | error msg => intro hrun; cases hrun
              | ok res₂ =>
                  obtain ⟨rest', u₂, a₂⟩ := res₂
                  intro hrun
                  simp only at hrun
                  obtain ⟨h1, h2, h3, h4⟩ := ih rest' u₂ a₂ hrec
                  cases hrun
                  refine ⟨?_, by simpa using h2, by simpa using h3, ?_⟩
                  · intro llid queue hmem hnr
                    rcases List.mem_cons.mp hmem with heq | hmem'
                    · exact List.mem_cons.mpr (Or.inl heq)
                    · exact List.mem_cons.mpr (Or.inr (h1 llid queue hmem' hnr))
                  · intro llid queue hmem
                    rcases List.mem_cons.mp hmem with heq | hmem'
                    · cases heq
                      exact ⟨h₀ :: hs₀, List.mem_cons.mpr (Or.inl rfl),
                        List.suffix_refl _⟩
                    · obtain ⟨queue', hq', hsuf⟩ := h4 llid queue hmem'
                      exact ⟨queue', List.mem_cons.mpr (Or.inr hq'), hsuf⟩
  obtain ⟨h1, h2, h3, h4⟩ := main
  refine ⟨h1, h2, h3, h4, ?_⟩
  intro t ht href e he
  have hvalid := h2 t ht
  rw [checkCounters_valid_iff] at hvalid
  obtain ⟨kp, hkp, hk1⟩ := List.any_eq_true.mp href
  have heq : keyCheck storage (allTxns t).masterMetadata remKey = .equalK := by
    have := hvalid kp hkp
    rwa [show kp.1 = remKey from by simpa using hk1] at this
  obtain ⟨e', he', hc⟩ := keyCheck_equal_counter _ _ _ heq
  rw [he] at he'
  cases he'
  rw [hstor] at hc
  exact hc

/-- Witness scenario for C5, mirroring the repository's RemasterReleases
test: key 1 has been remastered to counter 2; txn replica 0 declared
counter 2 (unblocked), txn replica 1 declared counter 1 (aborted); both
wait in the queue of local log 0. -/
def c5WitStorage : RMStorage := fun k => if k = 1 then some ⟨0, 2⟩ else none

def c5WitTxns : TxnReplicaId → RMTxn := fun t =>
  if t = 0 then ⟨[(1, .READ)], [(1, ⟨0, 2⟩)]⟩
  else ⟨[(1, .READ)], [(1, ⟨0, 1⟩)]⟩

theorem c5_remaster_occured_unblock_witness :
    remasterOccured c5WitStorage c5WitTxns 1 2 [(0, [0, 1])]
      = .ok ([(0, [])], [0], [1]) ∧
    checkCounters c5WitStorage (c5WitTxns 0).masterMetadata
      (c5WitTxns 0).keysInPartition = .ok .VALID ∧
    (∀ e, (c5WitTxns 0).masterMetadata.lookup 1 = some e → e.counter = 1 + 1) ∧
    checkCounters c5WitStorage (c5WitTxns 1).masterMetadata
      (c5WitTxns 1).keysInPartition = .ok .ABORT := by
  have h := c5_remaster_occured_unblock c5WitStorage c5WitTxns 1 1
    [(0, [0, 1])] [(0, [])] [0] [1] 2 rfl rfl
  exact ⟨rfl, h.2.1 0 (by simp), h.2.2.2.2 0 (by simp) (by decide),
    h.2.2.1 1 (by simp)⟩

/-! ### Claim C6: `num_locks_waited[t] = 0` iff t is ready

The claim quantifies over operation sequences on one
`DeterministicLockManager`. An operation is one public call; a step returns
the possibly signalled ready transactions (the boolean results of
`RegisterTxn`/`AcquireLocks` signal their own transaction, `ReleaseLocks`
returns a ready set). -/

inductive LMOp
  | reg (txn : Txn)
  | acq (txn : Txn)
  | rel (txn : Txn)

def LMOp.txnId : LMOp → TxnId
  | .reg txn => txn.id
  | .acq txn => txn.id
  | .rel txn => txn.id

/-- One public call on the lock manager, with the set of transactions it
reports ready. -/
def lmStep (cfg : Config) (m : LockManager) : LMOp → LockManager × Finset TxnId
  | .reg txn =>
      let (ok, m') := m.registerTxn cfg txn
      (m', if ok then {txn.id} else ∅)
  | .acq txn =>
      let (ok, m') := m.acquireLocks cfg txn
      (m', if ok then {txn.id} else ∅)
  | .rel txn =>
      let (ready, m') := m.releaseLocks cfg txn
      (m', ready)

/-- Run a list of calls, collecting every ready signal. -/
def runTrace (cfg : Config) : LockManager → List LMOp → LockManager × Finset TxnId
  | m, [] => (m, ∅)
  | m, op :: ops =>
      let (m', sig) := lmStep cfg m op
      let (m'', sigs) := runTrace cfg m' ops
      (m'', sig ∪ sigs)

/-- Structural invariant of one lock-table entry, maintained by the manager:
the waiter set indexes exactly the queued transaction ids; no id is queued
twice; holders and waiters are disjoint; an UNLOCKED entry is empty; and —
because both acquire paths enqueue with tag READ — every queue entry is
tagged READ. -/
def entryInv (s : LockState) : Prop :=
  s.waiters = (s.waiterQueue.map Prod.fst).toFinset ∧
  (s.waiterQueue.map Prod.fst).Nodup ∧
  (∀ x ∈ s.holders, x ∉ s.waiters) ∧
  (s.mode = .UNLOCKED → s.holders = ∅ ∧ s.waiterQueue = []) ∧
  (∀ e ∈ s.waiterQueue, e.2 = LockMode.READ)

theorem entryInv_default : entryInv {} := by
  refine ⟨rfl, List.nodup_nil, ?_, fun _ => ⟨rfl, rfl⟩, ?_⟩ <;> simp

/-- `AcquireReadLock` on an entry satisfying the invariant, called for a
transaction that is not yet queued: the invariant is preserved, other
transactions keep their positions, and the caller becomes a holder exactly
when the call returns true, a waiter otherwise. -/
theorem acquireReadLock_spec (u : TxnId) (s : LockState) (hinv : entryInv s)
    (hh : u ∉ s.holders) (hw : u ∉ s.waiters) :
    entryInv (s.acquireReadLock u).2 ∧
    (∀ x, x ≠ u →
      ((x ∈ (s.acquireReadLock u).2.holders ↔ x ∈ s.holders) ∧
       (x ∈ (s.acquireReadLock u).2.waiters ↔ x ∈ s.waiters))) ∧
    ((s.acquireReadLock u).1 = true →
      u ∈ (s.acquireReadLock u).2.holders ∧ u ∉ (s.acquireReadLock u).2.waiters) ∧
    ((s.acquireReadLock u).1 = false →
      u ∉ (s.acquireReadLock u).2.holders ∧ u ∈ (s.acquireReadLock u).2.waiters) := by
  obtain ⟨hsync, hnd, hdisj, hunl, htags⟩ := hinv
  cases hmode : s.mode with
  | UNLOCKED =>
      obtain ⟨hh0, hq0⟩ := hunl hmode
      have hw0 : s.waiters = ∅ := by rw [hsync, hq0]; rfl
      simp only [LockState.acquireReadLock, hmode]
      refine ⟨⟨by simpa using hsync, hnd, ?_, by simp, htags⟩, ?_, ?_, ?_⟩
      · intro x hx
        rcases Finset.mem_insert.mp hx with rfl | hx'
        · exact hw
        · exact hdisj x hx'
      · intro x hxu
        simp [Finset.mem_insert, hxu]
      · intro _
        simp [hw0]
      · intro hcontra
        cases hcontra
  | READ =>
      simp only [LockState.acquireReadLock, hmode]
      by_cases hwe : s.waiters = ∅
      · rw [if_pos hwe]
        refine ⟨⟨hsync, hnd, ?_, by simp, htags⟩, ?_, ?_, ?_⟩
        · intro x hx
          rcases Finset.mem_insert.mp hx with rfl | hx'
          · exact hw
          · exact hdisj x hx'
        · intro x hxu
          simp [Finset.mem_insert, hxu]
        · intro _
          simp [hwe]
        · intro hcontra
          cases hcontra
      · rw [if_neg hwe]
        refine ⟨⟨?_, ?_, ?_, by simp, ?_⟩, ?_, ?_, ?_⟩
        · simp only [List.map_append, List.map_cons, List.map_nil,
            List.toFinset_append]
          rw [hsync]
          ext x
          simp [Finset.mem_insert, Or.comm]
        · simp only [List.map_append, List.map_cons, List.map_nil]
          rw [List.nodup_append]
          refine ⟨hnd, List.nodup_singleton u, ?_⟩
          intro x hx
          simp only [List.mem_singleton]
          intro rfl_eq
          subst rfl_eq
          exact hw (by rw [hsync]; exact List.mem_toFinset.mpr hx)
        · intro x hx
          intro hmem
          rcases Finset.mem_insert.mp hmem with rfl | hx'
          · exact hh hx
          · exact hdisj x hx hx'
        · intro e he
          rcases List.mem_append.mp he with he' | he'
          · exact htags e he'
          · simp only [List.mem_singleton] at he'
            rw [he']
        · intro x hxu
          simp [Finset.mem_insert, hxu]
        · intro hcontra
          cases hcontra
        · intro _
          exact ⟨hh, Finset.mem_insert_self u s.waiters⟩
  | WRITE =>
      simp only [LockState.acquireReadLock, hmode]
      refine ⟨⟨?_, ?_, ?_, by simp, ?_⟩, ?_, ?_, ?_⟩
      · simp only [List.map_append, List.map_cons, List.map_nil,
          List.toFinset_append]
        rw [hsync]
        ext x
        simp [Finset.mem_insert, Or.comm]
      · simp only [List.map_append, List.map_cons, List.map_nil]
        rw [List.nodup_append]
        refine ⟨hnd, List.nodup_singleton u, ?_⟩
        intro x hx
        simp only [List.mem_singleton]
        intro rfl_eq
        subst rfl_eq
        exact hw (by rw [hsync]; exact List.mem_toFinset.mpr hx)
      · intro x hx
        intro hmem
        rcases Finset.mem_insert.mp hmem with rfl | hx'
        · exact hh hx
        · exact hdisj x hx hx'
      · intro e he
        rcases List.mem_append.mp he with he' | he'
        · exact htags e he'
        · simp only [List.mem_singleton] at he'
          rw [he']
      · intro x hxu
        simp [Finset.mem_insert, hxu]
      · intro hcontra
        cases hcontra
      · intro _
        exact ⟨hh, Finset.mem_insert_self u s.waiters⟩

/-- Same as `acquireReadLock_spec` for `AcquireWriteLock` (which enqueues
with tag READ, line 42). -/
theorem acquireWriteLock_spec (u : TxnId) (s : LockState) (hinv : entryInv s)
    (hh : u ∉ s.holders) (hw : u ∉ s.waiters) :
    entryInv (s.acquireWriteLock u).2 ∧
    (∀ x, x ≠ u →
      ((x ∈ (s.acquireWriteLock u).2.holders ↔ x ∈ s.holders) ∧
       (x ∈ (s.acquireWriteLock u).2.waiters ↔ x ∈ s.waiters))) ∧
    ((s.acquireWriteLock u).1 = true →
      u ∈ (s.acquireWriteLock u).2.holders ∧ u ∉ (s.acquireWriteLock u).2.waiters) ∧
    ((s.acquireWriteLock u).1 = false →
      u ∉ (s.acquireWriteLock u).2.holders ∧ u ∈ (s.acquireWriteLock u).2.waiters) := by
  obtain ⟨hsync, hnd, hdisj, hunl, htags⟩ := hinv
  cases hmode : s.mode with
  | UNLOCKED =>
      obtain ⟨hh0, hq0⟩ := hunl hmode
      have hw0 : s.waiters = ∅ := by rw [hsync, hq0]; rfl
      simp only [LockState.acquireWriteLock, hmode]
      refine ⟨⟨by simpa using hsync, hnd, ?_, by simp, htags⟩, ?_, ?_, ?_⟩
      · intro x hx
        rcases Finset.mem_insert.mp hx with rfl | hx'
        · exact hw
        · exact hdisj x hx'
      · intro x hxu
        simp [Finset.mem_insert, hxu]
      · intro _
        simp [hw0]
      · intro hcontra
        cases hcontra
  | READ =>
      simp only [LockState.acquireWriteLock, hmode]
      refine ⟨⟨?_, ?_, ?_, by simp, ?_⟩, ?_, ?_, ?_⟩
      · simp only [List.map_append, List.map_cons, List.map_nil,
          List.toFinset_append]
        rw [hsync]
        ext x
        simp [Finset.mem_insert, Or.comm]
      · simp only [List.map_append, List.map_cons, List.map_nil]
        rw [List.nodup_append]
        refine ⟨hnd, List.nodup_singleton u, ?_⟩
        intro x hx
        simp only [List.mem_singleton]
        intro rfl_eq
        subst rfl_eq
        exact hw (by rw [hsync]; exact List.mem_toFinset.mpr hx)
      · intro x hx
        intro hmem
        rcases Finset.mem_insert.mp hmem with rfl | hx'
        · exact hh hx
        · exact hdisj x hx hx'
      · intro e he
        rcases List.mem_append.mp he with he' | he'
        · exact htags e he'
        · simp only [List.mem_singleton] at he'
          rw [he']
      · intro x hxu
        simp [Finset.mem_insert, hxu]
      · intro hcontra
        cases hcontra
      · intro _
        exact ⟨hh, Finset.mem_insert_self u s.waiters⟩
  | WRITE =>
      simp only [LockState.acquireWriteLock, hmode]
      refine ⟨⟨?_, ?_, ?_, by simp, ?_⟩, ?_, ?_, ?_⟩
      · simp only [List.map_append, List.map_cons, List.map_nil,
          List.toFinset_append]
        rw [hsync]
        ext x
        simp [Finset.mem_insert, Or.comm]
      · simp only [List.map_append, List.map_cons, List.map_nil]
        rw [List.nodup_append]
        refine ⟨hnd, List.nodup_singleton u, ?_⟩
        intro x hx
        simp only [List.mem_singleton]
        intro rfl_eq
        subst rfl_eq
        exact hw (by rw [hsync]; exact List.mem_toFinset.mpr hx)
      · intro x hx
        intro hmem
        rcases Finset.mem_insert.mp hmem with rfl | hx'
        · exact hh hx
        · exact hdisj x hx hx'
      · intro e he
        rcases List.mem_append.mp he with he' | he'
        · exact htags e he'
        · simp only [List.mem_singleton] at he'
          rw [he']
      · intro x hxu
        simp [Finset.mem_insert, hxu]
      · intro hcontra
        cases hcontra
      · intro _
        exact ⟨hh, Finset.mem_insert_self u s.waiters⟩


theorem promoteReads_allRead (q : List (TxnId × LockMode)) (hs ws : Finset TxnId)
    (h : ∀ e ∈ q, e.2 = LockMode.READ) :
    (promoteReads q hs ws).1 = [] ∧
    (∀ x, x ∈ (promoteReads q hs ws).2.1 ↔ x ∈ hs ∨ x ∈ q.map Prod.fst) ∧
    (∀ x, x ∈ (promoteReads q hs ws).2.2 ↔ x ∈ ws ∧ x ∉ q.map Prod.fst) := by
  induction q generalizing hs ws with
  | nil => simp [promoteReads]
  | cons e rest ih =>
      obtain ⟨t, mo⟩ := e
      have hm : mo = LockMode.READ := h (t, mo) (by simp)
      subst hm
      simp only [promoteReads, if_pos rfl, if_true]
      obtain ⟨h1, h2, h3⟩ := ih (insert t hs) (ws.erase t)
        (fun e he => h e (List.mem_cons_of_mem _ he))
      refine ⟨h1, ?_, ?_⟩
      · intro x
        rw [h2 x]
        simp only [Finset.mem_insert, List.map_cons, List.mem_cons]
        tauto
      · intro x
        rw [h3 x]
        simp only [Finset.mem_erase, List.map_cons, List.mem_cons]
        tauto

theorem readPrefixIds_allRead (q : List (TxnId × LockMode))
    (h : ∀ e ∈ q, e.2 = LockMode.READ) :
    readPrefixIds q = q.map Prod.fst := by
  induction q with
  | nil => rfl
  | cons e rest ih =>
      obtain ⟨t, mo⟩ := e
      have hm : mo = LockMode.READ := h (t, mo) (by simp)
      subst hm
      simp only [readPrefixIds, if_pos rfl, if_true, List.map_cons]
      rw [ih (fun e he => h e (List.mem_cons_of_mem _ he))]

theorem release_eq_not_holder (u : TxnId) (s : LockState) (hu : u ∉ s.holders) :
    s.release u = ([], { s with
      waiterQueue := s.waiterQueue.filter (fun p => p.1 ≠ u),
      waiters := s.waiters.erase u }) := by
  unfold LockState.release
  rw [if_pos hu]

theorem release_eq_other_holders (u : TxnId) (s : LockState) (hu : u ∈ s.holders)
    (hne : s.holders.erase u ≠ ∅) :
    s.release u = ([], { s with holders := s.holders.erase u }) := by
  unfold LockState.release
  rw [if_neg (not_not_intro hu), if_pos hne]

theorem release_eq_unlock (u : TxnId) (s : LockState) (hu : u ∈ s.holders)
    (he : s.holders.erase u = ∅) (hw : s.waiters = ∅) :
    s.release u = ([], { s with
      holders := s.holders.erase u,
      mode := .UNLOCKED }) := by
  unfold LockState.release
  rw [if_neg (not_not_intro hu), if_neg (not_not_intro he), if_pos hw]

theorem release_eq_promotion (u : TxnId) (s : LockState) (hu : u ∈ s.holders)
    (he : s.holders.erase u = ∅) (hw : s.waiters ≠ ∅)
    (w : TxnId) (rest : List (TxnId × LockMode))
    (hq : s.waiterQueue = (w, LockMode.READ) :: rest) :
    s.release u
      = ((readPrefixIds ((w, LockMode.READ) :: rest)).dedup,
         { mode := .READ,
           holders := (promoteReads ((w, LockMode.READ) :: rest)
             (s.holders.erase u) s.waiters).2.1,
           waiters := (promoteReads ((w, LockMode.READ) :: rest)
             (s.holders.erase u) s.waiters).2.2,
           waiterQueue := (promoteReads ((w, LockMode.READ) :: rest)
             (s.holders.erase u) s.waiters).1 }) := by
  unfold LockState.release
  rw [if_neg (not_not_intro hu), if_neg (not_not_intro he), if_neg hw, hq]
  simp only
  rw [if_true]


/-- `map Prod.fst` commutes with filtering out one transaction id. -/
theorem map_fst_filter_ne (u : TxnId) (q : List (TxnId × LockMode)) :
    (q.filter (fun p => p.1 ≠ u)).map Prod.fst
      = (q.map Prod.fst).filter (fun x => x ≠ u) := by
  induction q with
  | nil => rfl
  | cons e rest ih =>
      simp only [ne_eq, decide_not] at ih ⊢
      by_cases he : e.1 = u
      · simp [List.filter_cons, he, ih]
      · simp [List.filter_cons, he, ih]

/-- An entry with a non-empty waiter set has a non-empty queue whose head is
tagged READ. -/
theorem queue_head_read (s : LockState) (hsync : s.waiters = (s.waiterQueue.map Prod.fst).toFinset)
    (htags : ∀ e ∈ s.waiterQueue, e.2 = LockMode.READ) (hw : s.waiters ≠ ∅) :
    ∃ w rest, s.waiterQueue = (w, LockMode.READ) :: rest := by
  cases hq : s.waiterQueue with
  | nil =>
      rw [hq] at hsync
      exact absurd (by rw [hsync]; rfl) hw
  | cons front rest =>
      obtain ⟨w, mo⟩ := front
      have hmo : mo = LockMode.READ := htags (w, mo) (by rw [hq]; simp)
      subst hmo
      exact ⟨w, rest, rfl⟩

/-- `Release` on an entry satisfying the invariant: the invariant is
preserved, the returned new holders are distinct former waiters, and every
transaction other than the released one moves from waiter to holder exactly
when it is returned. -/
theorem release_spec (u : TxnId) (s : LockState) (hinv : entryInv s) :
    entryInv (s.release u).2 ∧ (s.release u).1.Nodup ∧
    (∀ x ∈ (s.release u).1, x ∈ s.waiters) ∧
    (∀ x, x ≠ u →
      ((x ∈ (s.release u).2.holders ↔ x ∈ s.holders ∨ x ∈ (s.release u).1) ∧
       (x ∈ (s.release u).2.waiters ↔ x ∈ s.waiters ∧ x ∉ (s.release u).1))) := by
  obtain ⟨hsync, hnd, hdisj, hunl, htags⟩ := hinv
  by_cases hu : u ∈ s.holders
  · by_cases hne : s.holders.erase u ≠ ∅
    · -- other holders remain
      rw [release_eq_other_holders u s hu hne]
      refine ⟨⟨hsync, hnd, ?_, ?_, htags⟩, List.nodup_nil, by simp, ?_⟩
      · exact fun x hx => hdisj x (Finset.mem_of_mem_erase hx)
      · intro hm
        exact absurd hu (by rw [(hunl hm).1]; simp)
      · intro x hxu
        constructor
        · simp [Finset.mem_erase, hxu]
        · simp
    · push_neg at hne
      by_cases hwe : s.waiters = ∅
      · -- entry becomes UNLOCKED
        rw [release_eq_unlock u s hu hne hwe]
        have hq0 : s.waiterQueue = [] := by
          rw [hwe] at hsync
          cases hq : s.waiterQueue with
          | nil => rfl
          | cons e rest =>
              rw [hq] at hsync
              have : e.1 ∈ (∅ : Finset TxnId) := by rw [hsync]; simp
              simp at this
        refine ⟨⟨hsync, hnd, ?_, fun _ => ⟨hne, hq0⟩, htags⟩,
          List.nodup_nil, by simp, ?_⟩
        · exact fun x hx => hdisj x (Finset.mem_of_mem_erase hx)
        · intro x hxu
          constructor
          · simp only [Finset.mem_erase, hne, Finset.not_mem_empty,
              false_iff, List.not_mem_nil, or_false]
            intro hmem
            exact absurd (Finset.mem_erase.mpr ⟨hxu, hmem⟩) (by rw [hne]; simp)
          · simp
      · -- promotion of the whole queue
        obtain ⟨w, rest, hq⟩ := queue_head_read s hsync htags hwe
        rw [release_eq_promotion u s hu hne hwe w rest hq]
        have htags' : ∀ e ∈ (w, LockMode.READ) :: rest, e.2 = LockMode.READ := by
          rw [← hq]; exact htags
        obtain ⟨hp1, hp2, hp3⟩ :=
          promoteReads_allRead ((w, LockMode.READ) :: rest) (s.holders.erase u)
            s.waiters htags'
        have hfst : ((w, LockMode.READ) :: rest).map Prod.fst
            = s.waiterQueue.map Prod.fst := by rw [hq]
        have hnh : (readPrefixIds ((w, LockMode.READ) :: rest)).dedup
            = ((w, LockMode.READ) :: rest).map Prod.fst := by
          rw [readPrefixIds_allRead _ htags']
          exact List.Nodup.dedup (by rw [hfst]; exact hnd)
        have hws' : ∀ x, x ∉ (promoteReads ((w, LockMode.READ) :: rest)
            (s.holders.erase u) s.waiters).2.2 := by
          intro x hmem
          rw [hp3 x] at hmem
          exact hmem.2 (by
            have := hmem.1
            rw [hsync, ← hfst] at this
            exact List.mem_toFinset.mp this)
        refine ⟨⟨?_, ?_, ?_, ?_, ?_⟩, ?_, ?_, ?_⟩
        · simp only [hp1, List.map_nil]
          ext x
          simp only [List.toFinset_nil, Finset.not_mem_empty, iff_false]
          exact hws' x
        · simp only [hp1, List.map_nil]
          exact List.nodup_nil
        · intro x hx hmem
          exact hws' x hmem
        · intro hm
          cases hm
        · simp only [hp1]
          intro e he
          simp at he
        · rw [hnh]
          rw [hfst]
          exact hnd
        · intro x hx
          rw [hnh, hfst] at hx
          rw [hsync]
          exact List.mem_toFinset.mpr hx
        · intro x hxu
          have hxh : x ∉ s.holders := by
            intro hmem
            exact absurd (Finset.mem_erase.mpr ⟨hxu, hmem⟩) (by rw [hne]; simp)
          constructor
          · rw [hp2 x, hnh]
            simp only [hne, Finset.not_mem_empty, false_or]
            exact Iff.intro Or.inr (fun h => h.resolve_left hxh)
          · constructor
            · intro hmem
              exact absurd hmem (hws' x)
            · rintro ⟨hmem, hnq⟩
              exfalso
              apply hnq
              rw [hnh, hfst]
              rw [hsync] at hmem
              exact List.mem_toFinset.mp hmem
  · -- not a holder
    rw [release_eq_not_holder u s hu]
    refine ⟨⟨?_, ?_, ?_, ?_, ?_⟩, List.nodup_nil, by simp, ?_⟩
    · rw [hsync, map_fst_filter_ne]
      ext x
      simp only [Finset.mem_erase, List.mem_toFinset, List.mem_filter,
        decide_eq_true_eq, ne_eq]
      tauto
    · rw [map_fst_filter_ne]
      exact hnd.filter _
    · exact fun x hx hmem => hdisj x hx (Finset.mem_of_mem_erase hmem)
    · intro hm
      refine ⟨(hunl hm).1, ?_⟩
      rw [(hunl hm).2]
      rfl
    · exact fun e he => htags e (List.mem_of_mem_filter he)
    · intro x hxu
      constructor
      · simp
      · simp [Finset.mem_erase, hxu]


/-- The invariant holds for every entry of the table. -/
def globalInv (m : LockManager) : Prop := ∀ k, entryInv (m.lockTable k)

/-- Transaction `t` holds or awaits no lock anywhere. -/
def absentTxn (t : TxnId) (m : LockManager) : Prop :=
  ∀ k, t ∉ (m.lockTable k).holders ∧ t ∉ (m.lockTable k).waiters

/-- After its `AcquireLocks` call, the tracked transaction is, for each of
its keys, either a holder or a waiter (exactly one), and is absent from
every other entry. -/
def placedTxn (cfg : Config) (tT : Txn) (m : LockManager) : Prop :=
  (∀ kp ∈ extractKeys cfg tT,
    (tT.id ∈ (m.lockTable kp.1).holders ∧ tT.id ∉ (m.lockTable kp.1).waiters) ∨
    (tT.id ∉ (m.lockTable kp.1).holders ∧ tT.id ∈ (m.lockTable kp.1).waiters)) ∧
  (∀ k, k ∉ (extractKeys cfg tT).map Prod.fst →
    tT.id ∉ (m.lockTable k).holders ∧ tT.id ∉ (m.lockTable k).waiters)

/-- The number of the tracked transaction's keys on which it is waiting. -/
def numWaiting (cfg : Config) (tT : Txn) (m : LockManager) : Nat :=
  ((extractKeys cfg tT).filter
    (fun kp => tT.id ∈ (m.lockTable kp.1).waiters)).length

theorem globalInv_init : globalInv LockManager.init :=
  fun _ => entryInv_default

/-- Effect of the new-holder loop: the table is untouched; ids not in the
list keep count and readiness; each listed id is decremented once and is
collected as ready exactly when its count reaches zero. -/
theorem applyNewHolders_spec (nh : List TxnId) (ready : Finset TxnId)
    (m : LockManager) (hnd : nh.Nodup) :
    (LockManager.applyNewHolders nh (ready, m)).2.lockTable = m.lockTable ∧
    (∀ x, x ∉ nh →
      (LockManager.applyNewHolders nh (ready, m)).2.numLocksWaited x
        = m.numLocksWaited x ∧
      ((x ∈ (LockManager.applyNewHolders nh (ready, m)).1) ↔ x ∈ ready)) ∧
    (∀ x ∈ nh,
      (LockManager.applyNewHolders nh (ready, m)).2.numLocksWaited x
        = m.numLocksWaited x - 1 ∧
      ((x ∈ (LockManager.applyNewHolders nh (ready, m)).1) ↔
        x ∈ ready ∨ m.numLocksWaited x - 1 = 0)) := by
  induction nh generalizing ready m with
  | nil => simp [LockManager.applyNewHolders]
  | cons h rest ih =>
      have hh : h ∉ rest := (List.nodup_cons.mp hnd).1
      have hndr : rest.Nodup := (List.nodup_cons.mp hnd).2
      by_cases hc : m.numLocksWaited h - 1 = 0
      · have hstep : LockManager.applyNewHolders (h :: rest) (ready, m)
            = LockManager.applyNewHolders rest (insert h ready,
              { m with numLocksWaited :=
                  Function.update m.numLocksWaited h (m.numLocksWaited h - 1) }) := by
          simp [LockManager.applyNewHolders, hc]
        rw [hstep]
        obtain ⟨ht, hnot, hmem⟩ := ih (insert h ready)
          { m with numLocksWaited :=
              Function.update m.numLocksWaited h (m.numLocksWaited h - 1) } hndr
        refine ⟨by rw [ht], ?_, ?_⟩
        · intro x hx
          have hxh : x ≠ h := fun heq => hx (heq ▸ List.mem_cons_self h rest)
          have hxr : x ∉ rest := fun hr => hx (List.mem_cons_of_mem h hr)
          obtain ⟨h1, h2⟩ := hnot x hxr
          refine ⟨by rw [h1]; simp [Function.update, hxh], ?_⟩
          rw [h2]
          simp [Finset.mem_insert, hxh]
        · intro x hx
          rcases List.mem_cons.mp hx with rfl | hxr
          · obtain ⟨h1, h2⟩ := hnot x hh
            refine ⟨by rw [h1]; simp [Function.update], ?_⟩
            rw [h2]
            simp only [Finset.mem_insert, true_or, true_iff]
            exact Or.inr hc
          · have hxh : x ≠ h := fun heq => hh (heq ▸ hxr)
            obtain ⟨h1, h2⟩ := hmem x hxr
            refine ⟨by rw [h1]; simp [Function.update, hxh], ?_⟩
            rw [h2]
            simp [Finset.mem_insert, hxh, Function.update]
      · have hstep : LockManager.applyNewHolders (h :: rest) (ready, m)
            = LockManager.applyNewHolders rest (ready,
              { m with numLocksWaited :=
                  Function.update m.numLocksWaited h (m.numLocksWaited h - 1) }) := by
          simp [LockManager.applyNewHolders, hc]
        rw [hstep]
        obtain ⟨ht, hnot, hmem⟩ := ih ready
          { m with numLocksWaited :=
              Function.update m.numLocksWaited h (m.numLocksWaited h - 1) } hndr
        refine ⟨by rw [ht], ?_, ?_⟩
        · intro x hx
          have hxh : x ≠ h := fun heq => hx (heq ▸ List.mem_cons_self h rest)
          have hxr : x ∉ rest := fun hr => hx (List.mem_cons_of_mem h hr)
          obtain ⟨h1, h2⟩ := hnot x hxr
          exact ⟨by rw [h1]; simp [Function.update, hxh], h2⟩
        · intro x hx
          rcases List.mem_cons.mp hx with rfl | hxr
          · obtain ⟨h1, h2⟩ := hnot x hh
            refine ⟨by rw [h1]; simp [Function.update], ?_⟩
            rw [h2]
            simp only [iff_self_or]
            intro hcontra
            exact absurd hcontra hc
          · have hxh : x ≠ h := fun heq => hh (heq ▸ hxr)
            obtain ⟨h1, h2⟩ := hmem x hxr
            exact ⟨by rw [h1]; simp [Function.update, hxh],
              by rw [h2]; simp [Function.update, hxh]⟩


/-- Every extracted key is in the local partition. -/
theorem extractKeys_local (cfg : Config) (txn : Txn) :
    ∀ kp ∈ extractKeys cfg txn, cfg.localKey kp.1 = true := by
  intro kp hkp
  unfold extractKeys at hkp
  rcases List.mem_append.mp hkp with h | h
  · obtain ⟨k, hk, rfl⟩ := List.mem_map.mp h
    have := List.of_mem_filter hk
    simp only [decide_eq_true_eq] at this
    exact this.1
  · obtain ⟨k, hk, rfl⟩ := List.mem_map.mp h
    have := List.of_mem_filter hk
    simpa using this

/-- Every extracted entry carries a READ or WRITE mode. -/
theorem extractKeys_mode (cfg : Config) (txn : Txn) :
    ∀ kp ∈ extractKeys cfg txn, kp.2 = LockMode.READ ∨ kp.2 = LockMode.WRITE := by
  intro kp hkp
  unfold extractKeys at hkp
  rcases List.mem_append.mp hkp with h | h
  · obtain ⟨k, -, rfl⟩ := List.mem_map.mp h
    exact Or.inl rfl
  · obtain ⟨k, -, rfl⟩ := List.mem_map.mp h
    exact Or.inr rfl

/-- Projecting the key out of the key/mode pairing is the identity. -/
theorem map_fst_map_pair (mo : LockMode) (l : List Key) :
    ((l.map (fun k => (k, mo))).map Prod.fst) = l := by
  induction l with
  | nil => rfl
  | cons a l ih => simp [ih]

/-- With duplicate-free read and write sets, the extracted keys are
pairwise distinct (a key in both sets is extracted once, as WRITE). -/
theorem extractKeys_fst_nodup (cfg : Config) (txn : Txn)
    (hr : txn.readSet.Nodup) (hw : txn.writeSet.Nodup) :
    ((extractKeys cfg txn).map Prod.fst).Nodup := by
  unfold extractKeys
  rw [List.map_append, List.nodup_append]
  rw [map_fst_map_pair, map_fst_map_pair]
  refine ⟨hr.filter _, hw.filter _, ?_⟩
  intro x hx hy
  have hx' := List.of_mem_filter hx
  simp only [decide_eq_true_eq] at hx'
  exact hx'.2 (List.mem_of_mem_filter hy)

/-- `RegisterTxn` with local keys: the table is untouched, the caller's
count increases by the number of keys (the zero branch erases an entry
that is already zero), other counts are untouched, and true is returned
exactly when the new count is zero. -/
theorem registerTxn_spec (cfg : Config) (txn : Txn) (m : LockManager)
    (hkeys : extractKeys cfg txn ≠ []) :
    (m.registerTxn cfg txn).2.lockTable = m.lockTable ∧
    (m.registerTxn cfg txn).2.numLocksWaited txn.id
      = m.numLocksWaited txn.id + (extractKeys cfg txn).length ∧
    (∀ x, x ≠ txn.id →
      (m.registerTxn cfg txn).2.numLocksWaited x = m.numLocksWaited x) ∧
    ((m.registerTxn cfg txn).1 = true ↔
      m.numLocksWaited txn.id + (extractKeys cfg txn).length = 0) := by
  unfold LockManager.registerTxn
  rw [if_neg hkeys]
  by_cases hc : m.numLocksWaited txn.id + (extractKeys cfg txn).length = 0
  · rw [if_pos hc]
    refine ⟨rfl, ?_, ?_, by simp [hc]⟩
    · simp [Function.update, hc]
    · intro x hx
      simp [Function.update, hx]
  · rw [if_neg hc]
    refine ⟨rfl, by simp [Function.update], ?_, by simp [hc]⟩
    intro x hx
    simp [Function.update, hx]


/-- A key acquisition by another transaction changes neither the tracked
transaction's positions nor its outstanding count, and keeps the table
invariant. -/
theorem acquireOneKey_other (u t : TxnId) (hne : t ≠ u) (m : LockManager)
    (kp : Key × LockMode) (hg : globalInv m) :
    globalInv (m.acquireOneKey u kp) ∧
    (∀ k, (t ∈ ((m.acquireOneKey u kp).lockTable k).holders ↔
            t ∈ (m.lockTable k).holders) ∧
          (t ∈ ((m.acquireOneKey u kp).lockTable k).waiters ↔
            t ∈ (m.lockTable k).waiters)) ∧
    (m.acquireOneKey u kp).numLocksWaited t = m.numLocksWaited t := by
  unfold LockManager.acquireOneKey
  by_cases hq : (m.lockTable kp.1).isQueued u = true
  · rw [if_pos hq]
    exact ⟨hg, by simp, rfl⟩
  · rw [if_neg hq]
    have hq' : u ∉ (m.lockTable kp.1).holders ∧ u ∉ (m.lockTable kp.1).waiters := by
      unfold LockState.isQueued at hq
      simpa [not_or] using hq
    cases hmode : kp.2 with
    | READ =>
        obtain ⟨hinv', hother, -, -⟩ :=
          acquireReadLock_spec u (m.lockTable kp.1) (hg kp.1) hq'.1 hq'.2
        rcases hres : (m.lockTable kp.1).acquireReadLock u with ⟨ok, s'⟩
        rw [hres] at hinv' hother
        simp only at hinv' hother
        simp only [hres]
        have hcore :
            globalInv { m with lockTable := Function.update m.lockTable kp.1 s' } ∧
            (∀ k, (t ∈ ((Function.update m.lockTable kp.1 s') k).holders ↔
                    t ∈ (m.lockTable k).holders) ∧
                  (t ∈ ((Function.update m.lockTable kp.1 s') k).waiters ↔
                    t ∈ (m.lockTable k).waiters)) := by
          constructor
          · intro k
            by_cases hk : k = kp.1
            · subst hk
              simpa [Function.update] using hinv'
            · simpa [Function.update, hk] using hg k
          · intro k
            by_cases hk : k = kp.1
            · subst hk
              simpa [Function.update] using hother t hne
            · simp [Function.update, hk]
        cases ok with
        | false =>
            simp only [if_false, Bool.false_eq_true]
            exact ⟨hcore.1, hcore.2, trivial⟩
        | true =>
            simp only [if_true]
            exact ⟨hcore.1, hcore.2, by simp [Function.update, hne]⟩
    | WRITE =>
        obtain ⟨hinv', hother, -, -⟩ :=
          acquireWriteLock_spec u (m.lockTable kp.1) (hg kp.1) hq'.1 hq'.2
        rcases hres : (m.lockTable kp.1).acquireWriteLock u with ⟨ok, s'⟩
        rw [hres] at hinv' hother
        simp only at hinv' hother
        simp only [hres]
        have hcore :
            globalInv { m with lockTable := Function.update m.lockTable kp.1 s' } ∧
            (∀ k, (t ∈ ((Function.update m.lockTable kp.1 s') k).holders ↔
                    t ∈ (m.lockTable k).holders) ∧
                  (t ∈ ((Function.update m.lockTable kp.1 s') k).waiters ↔
                    t ∈ (m.lockTable k).waiters)) := by
          constructor
          · intro k
            by_cases hk : k = kp.1
            · subst hk
              simpa [Function.update] using hinv'
            · simpa [Function.update, hk] using hg k
          · intro k
            by_cases hk : k = kp.1
            · subst hk
              simpa [Function.update] using hother t hne
            · simp [Function.update, hk]
        cases ok with
        | false =>
            simp only [if_false, Bool.false_eq_true]
            exact ⟨hcore.1, hcore.2, trivial⟩
        | true =>
            simp only [if_true]
            exact ⟨hcore.1, hcore.2, by simp [Function.update, hne]⟩
    | UNLOCKED =>
        simp only
        have hupd : Function.update m.lockTable kp.1 (m.lockTable kp.1)
            = m.lockTable := Function.update_eq_self kp.1 m.lockTable
        simp only [if_false, Bool.false_eq_true, hupd]
        refine ⟨?_, by simp, trivial⟩
        intro k
        exact hg k


/-- A key acquisition by the tracked transaction on an entry where it is
absent: it ends as holder (count decremented) or waiter (count unchanged);
other entries and other counts are untouched. -/
theorem acquireOneKey_tracked (t : TxnId) (m : LockManager) (kp : Key × LockMode)
    (hg : globalInv m)
    (habs : t ∉ (m.lockTable kp.1).holders ∧ t ∉ (m.lockTable kp.1).waiters)
    (hmode : kp.2 = LockMode.READ ∨ kp.2 = LockMode.WRITE) :
    globalInv (m.acquireOneKey t kp) ∧
    (∀ k, k ≠ kp.1 → (m.acquireOneKey t kp).lockTable k = m.lockTable k) ∧
    (∀ x, x ≠ t → (m.acquireOneKey t kp).numLocksWaited x = m.numLocksWaited x) ∧
    ((t ∈ ((m.acquireOneKey t kp).lockTable kp.1).holders ∧
      t ∉ ((m.acquireOneKey t kp).lockTable kp.1).waiters ∧
      (m.acquireOneKey t kp).numLocksWaited t = m.numLocksWaited t - 1) ∨
     (t ∉ ((m.acquireOneKey t kp).lockTable kp.1).holders ∧
      t ∈ ((m.acquireOneKey t kp).lockTable kp.1).waiters ∧
      (m.acquireOneKey t kp).numLocksWaited t = m.numLocksWaited t)) := by
  unfold LockManager.acquireOneKey
  have hq : ¬ (m.lockTable kp.1).isQueued t = true := by
    unfold LockState.isQueued
    simp [not_or, habs.1, habs.2]
  rw [if_neg hq]
  rcases hmode with hmode | hmode
  · rw [hmode]
    obtain ⟨hinv', hother, hok, hnok⟩ :=
      acquireReadLock_spec t (m.lockTable kp.1) (hg kp.1) habs.1 habs.2
    rcases hres : (m.lockTable kp.1).acquireReadLock t with ⟨ok, s'⟩
    rw [hres] at hinv' hother hok hnok
    simp only at hinv' hother hok hnok
    simp only [hres]
    have hginv : globalInv { m with
        lockTable := Function.update m.lockTable kp.1 s' } := by
      intro k
      by_cases hk : k = kp.1
      · subst hk
        simpa [Function.update] using hinv'
      · simpa [Function.update, hk] using hg k
    cases ok with
    | true =>
        simp only [if_true]
        refine ⟨hginv, ?_, ?_, Or.inl ⟨?_, ?_, ?_⟩⟩
        · intro k hk
          simp [Function.update, hk]
        · intro x hx
          simp [Function.update, hx]
        · simpa [Function.update] using (hok rfl).1
        · simpa [Function.update] using (hok rfl).2
        · simp [Function.update]
    | false =>
        simp only [if_false, Bool.false_eq_true]
        refine ⟨hginv, ?_, fun x _ => trivial, Or.inr ⟨?_, ?_, trivial⟩⟩
        · intro k hk
          simp [Function.update, hk]
        · simpa [Function.update] using (hnok rfl).1
        · simpa [Function.update] using (hnok rfl).2
  · rw [hmode]
    obtain ⟨hinv', hother, hok, hnok⟩ :=
      acquireWriteLock_spec t (m.lockTable kp.1) (hg kp.1) habs.1 habs.2
    rcases hres : (m.lockTable kp.1).acquireWriteLock t with ⟨ok, s'⟩
    rw [hres] at hinv' hother hok hnok
    simp only at hinv' hother hok hnok
    simp only [hres]
    have hginv : globalInv { m with
        lockTable := Function.update m.lockTable kp.1 s' } := by
      intro k
      by_cases hk : k = kp.1
      · subst hk
        simpa [Function.update] using hinv'
      · simpa [Function.update, hk] using hg k
    cases ok with
    | true =>
        simp only [if_true]
        refine ⟨hginv, ?_, ?_, Or.inl ⟨?_, ?_, ?_⟩⟩
        · intro k hk
          simp [Function.update, hk]
        · intro x hx
          simp [Function.update, hx]
        · simpa [Function.update] using (hok rfl).1
        · simpa [Function.update] using (hok rfl).2
        · simp [Function.update]
    | false =>
        simp only [if_false, Bool.false_eq_true]
        refine ⟨hginv, ?_, fun x _ => trivial, Or.inr ⟨?_, ?_, trivial⟩⟩
        · intro k hk
          simp [Function.update, hk]
        · simpa [Function.update] using (hnok rfl).1
        · simpa [Function.update] using (hnok rfl).2


/-- `numWaiting` only depends on the tracked transaction's waiter
memberships on its own keys. -/
theorem numWaiting_congr (cfg : Config) (tT : Txn) (m m' : LockManager)
    (h : ∀ kp ∈ extractKeys cfg tT,
      (tT.id ∈ (m'.lockTable kp.1).waiters ↔ tT.id ∈ (m.lockTable kp.1).waiters)) :
    numWaiting cfg tT m' = numWaiting cfg tT m := by
  unfold numWaiting
  have : (extractKeys cfg tT).filter
        (fun kp => tT.id ∈ (m'.lockTable kp.1).waiters)
      = (extractKeys cfg tT).filter
        (fun kp => tT.id ∈ (m.lockTable kp.1).waiters) := by
    apply List.filter_congr
    intro kp hkp
    simp [h kp hkp]
  rw [this]

/-- Bookkeeping for a table change local to one key: the waiting-key count
changes exactly with the tracked transaction's waiter membership there. -/
theorem filter_length_update (t : TxnId) (m m' : LockManager) (k : Key)
    (K : List (Key × LockMode)) (hnd : (K.map Prod.fst).Nodup)
    (hoth : ∀ k', k' ≠ k → m'.lockTable k' = m.lockTable k') :
    (K.filter (fun kp => t ∈ (m'.lockTable kp.1).waiters)).length
      + (if k ∈ K.map Prod.fst ∧ t ∈ (m.lockTable k).waiters then 1 else 0)
    = (K.filter (fun kp => t ∈ (m.lockTable kp.1).waiters)).length
      + (if k ∈ K.map Prod.fst ∧ t ∈ (m'.lockTable k).waiters then 1 else 0) := by
  induction K with
  | nil => simp
  | cons kp rest ih =>
      simp only [List.map_cons, List.nodup_cons] at hnd
      obtain ⟨hkp, hndr⟩ := hnd
      by_cases hk : kp.1 = k
      · subst hk
        have hrest : rest.filter (fun kq => t ∈ (m'.lockTable kq.1).waiters)
            = rest.filter (fun kq => t ∈ (m.lockTable kq.1).waiters) := by
          apply List.filter_congr
          intro kq hkq
          have : kq.1 ≠ kp.1 := fun heq =>
            hkp (heq ▸ List.mem_map.mpr ⟨kq, hkq, rfl⟩)
          rw [hoth kq.1 this]
        have hmem : kp.1 ∈ kp.1 :: rest.map Prod.fst := List.mem_cons_self _ _
        simp only [List.filter_cons, hrest, List.mem_cons, true_or, true_and,
          hmem]
        by_cases hw : t ∈ (m.lockTable kp.1).waiters <;>
          by_cases hw' : t ∈ (m'.lockTable kp.1).waiters <;>
            · simp [hw, hw', List.length_cons]
              try omega
      · have heq : m'.lockTable kp.1 = m.lockTable kp.1 := hoth kp.1 hk
        have hmem : (k ∈ kp.1 :: rest.map Prod.fst) ↔ k ∈ rest.map Prod.fst := by
          simp only [List.mem_cons]
          constructor
          · rintro (rfl | h)
            · exact absurd rfl (Ne.symm hk)
            · exact h
          · exact Or.inr
        simp only [List.filter_cons, heq, List.map_cons, hmem]
        by_cases hw : t ∈ (m.lockTable kp.1).waiters
        · have hb : decide (t ∈ (m.lockTable kp.1).waiters) = true :=
            decide_eq_true hw
          rw [if_pos hb, if_pos hb]
          simp only [List.length_cons]
          have := ih hndr
          omega
        · have hb : ¬ decide (t ∈ (m.lockTable kp.1).waiters) = true := by
            simpa using hw
          rw [if_neg hb, if_neg hb]
          exact ih hndr


/-- One key of another transaction's `ReleaseLocks` loop, seen by the
tracked transaction `t`: the entry invariants survive; other entries are
untouched; and either `t` is promoted on this key (waiter to holder, count
decremented, collected as ready exactly when the count reaches zero) or
nothing about `t` changes. -/
theorem releaseOneKey_other (cfg : Config) (u t : TxnId) (hne : t ≠ u)
    (ready : Finset TxnId) (m : LockManager) (kp : Key × LockMode)
    (hg : globalInv m) :
    globalInv (LockManager.releaseOneKey cfg u (ready, m) kp).2 ∧
    (∀ k, k ≠ kp.1 →
      (LockManager.releaseOneKey cfg u (ready, m) kp).2.lockTable k
        = m.lockTable k) ∧
    ((t ∈ (m.lockTable kp.1).waiters ∧
      t ∈ ((LockManager.releaseOneKey cfg u (ready, m) kp).2.lockTable kp.1).holders ∧
      t ∉ ((LockManager.releaseOneKey cfg u (ready, m) kp).2.lockTable kp.1).waiters ∧
      (LockManager.releaseOneKey cfg u (ready, m) kp).2.numLocksWaited t
        = m.numLocksWaited t - 1 ∧
      ((t ∈ (LockManager.releaseOneKey cfg u (ready, m) kp).1) ↔
        t ∈ ready ∨ m.numLocksWaited t - 1 = 0)) ∨
     ((t ∈ ((LockManager.releaseOneKey cfg u (ready, m) kp).2.lockTable kp.1).holders ↔
        t ∈ (m.lockTable kp.1).holders) ∧
      (t ∈ ((LockManager.releaseOneKey cfg u (ready, m) kp).2.lockTable kp.1).waiters ↔
        t ∈ (m.lockTable kp.1).waiters) ∧
      (LockManager.releaseOneKey cfg u (ready, m) kp).2.numLocksWaited t
        = m.numLocksWaited t ∧
      ((t ∈ (LockManager.releaseOneKey cfg u (ready, m) kp).1) ↔ t ∈ ready))) := by
  unfold LockManager.releaseOneKey
  by_cases hloc : cfg.localKey kp.1 = true
  · rw [if_pos hloc]
    obtain ⟨hinv', hnhnd, hnhw, hmemb⟩ := release_spec u (m.lockTable kp.1) (hg kp.1)
    rcases hrel : (m.lockTable kp.1).release u with ⟨nh, s'⟩
    rw [hrel] at hinv' hnhnd hnhw hmemb
    simp only at hinv' hnhnd hnhw hmemb ⊢
    obtain ⟨hT, hnotin, hisin⟩ := applyNewHolders_spec nh ready
      { m with lockTable := Function.update m.lockTable kp.1 s' } hnhnd
    have hg' : globalInv ((LockManager.applyNewHolders nh
        (ready, { m with lockTable := Function.update m.lockTable kp.1 s' })).2) := by
      intro k
      rw [hT]
      by_cases hk : k = kp.1
      · subst hk
        simpa [Function.update] using hinv'
      · simpa [Function.update, hk] using hg k
    have hoth : ∀ k, k ≠ kp.1 →
        ((LockManager.applyNewHolders nh
          (ready, { m with lockTable := Function.update m.lockTable kp.1 s' })).2.lockTable k)
          = m.lockTable k := by
      intro k hk
      rw [hT]
      simp [Function.update, hk]
    have hentry : ((LockManager.applyNewHolders nh
        (ready, { m with lockTable := Function.update m.lockTable kp.1 s' })).2.lockTable kp.1)
        = s' := by
      rw [hT]
      simp [Function.update]
    obtain ⟨hmh, hmw⟩ := hmemb t hne
    by_cases hmem : t ∈ nh
    · obtain ⟨hcnt, hrdy⟩ := hisin t hmem
      refine ⟨hg', hoth, Or.inl ⟨hnhw t hmem, ?_, ?_, ?_, ?_⟩⟩
      · rw [hentry, hmh]
        exact Or.inr hmem
      · rw [hentry, hmw]
        rintro ⟨-, habs⟩
        exact habs hmem
      · rw [hcnt]
      · rw [hrdy]
    · obtain ⟨hcnt, hrdy⟩ := hnotin t hmem
      refine ⟨hg', hoth, Or.inr ⟨?_, ?_, ?_, ?_⟩⟩
      · rw [hentry, hmh]
        simp [hmem]
      · rw [hentry, hmw]
        simp [hmem]
      · rw [hcnt]
      · rw [hrdy]
  · rw [if_neg hloc]
    exact ⟨hg, fun k _ => rfl, Or.inr ⟨Iff.rfl, Iff.rfl, rfl, Iff.rfl⟩⟩


theorem numWaiting_update_key (cfg : Config) (tT : Txn) (m m' : LockManager)
    (k : Key) (hnd : ((extractKeys cfg tT).map Prod.fst).Nodup)
    (hoth : ∀ k', k' ≠ k → m'.lockTable k' = m.lockTable k') :
    numWaiting cfg tT m'
      + (if k ∈ (extractKeys cfg tT).map Prod.fst ∧
            tT.id ∈ (m.lockTable k).waiters then 1 else 0)
    = numWaiting cfg tT m
      + (if k ∈ (extractKeys cfg tT).map Prod.fst ∧
            tT.id ∈ (m'.lockTable k).waiters then 1 else 0) := by
  unfold numWaiting
  exact filter_length_update tT.id m m' k (extractKeys cfg tT) hnd hoth

/-- The whole key loop of another transaction's `ReleaseLocks`, seen by the
tracked transaction `t`: the entry invariants survive; `t`'s waiterships
only shrink and it gains holderships exactly where it stops waiting; the
waiting-key count does not grow; `t`'s outstanding count drops by exactly
the number of keys it stopped waiting on; and `t` is collected as ready
exactly when its count crosses zero during the loop. -/
theorem releaseFold_spec (cfg : Config) (tT : Txn) (u : TxnId)
    (hne : tT.id ≠ u)
    (hnd : ((extractKeys cfg tT).map Prod.fst).Nodup)
    (ks : List (Key × LockMode)) (ready : Finset TxnId) (m : LockManager)
    (hg : globalInv m)
    (hwk : ∀ k, tT.id ∈ (m.lockTable k).waiters →
      k ∈ (extractKeys cfg tT).map Prod.fst) :
    globalInv (ks.foldl (LockManager.releaseOneKey cfg u) (ready, m)).2 ∧
    (∀ k, tT.id ∈ ((ks.foldl (LockManager.releaseOneKey cfg u) (ready, m)).2.lockTable k).waiters →
      tT.id ∈ (m.lockTable k).waiters) ∧
    (∀ k, tT.id ∈ ((ks.foldl (LockManager.releaseOneKey cfg u) (ready, m)).2.lockTable k).holders ↔
      tT.id ∈ (m.lockTable k).holders ∨
      (tT.id ∈ (m.lockTable k).waiters ∧
        tT.id ∉ ((ks.foldl (LockManager.releaseOneKey cfg u) (ready, m)).2.lockTable k).waiters)) ∧
    numWaiting cfg tT (ks.foldl (LockManager.releaseOneKey cfg u) (ready, m)).2
      ≤ numWaiting cfg tT m ∧
    (ks.foldl (LockManager.releaseOneKey cfg u) (ready, m)).2.numLocksWaited tT.id
      = m.numLocksWaited tT.id
        - ((numWaiting cfg tT m : Int)
           - (numWaiting cfg tT (ks.foldl (LockManager.releaseOneKey cfg u) (ready, m)).2 : Int)) ∧
    ((tT.id ∈ (ks.foldl (LockManager.releaseOneKey cfg u) (ready, m)).1) ↔
      (tT.id ∈ ready ∨
        ((ks.foldl (LockManager.releaseOneKey cfg u) (ready, m)).2.numLocksWaited tT.id ≤ 0 ∧
         0 < m.numLocksWaited tT.id))) := by
  induction ks generalizing ready m with
  | nil =>
      simp only [List.foldl_nil]
      refine ⟨hg, fun k h => h, fun k => by simp, le_refl _, by omega, ?_⟩
      constructor
      · exact Or.inl
      · rintro (h | ⟨h1, h2⟩)
        · exact h
        · exfalso
          omega
  | cons kp ks' ih =>
      simp only [List.foldl_cons]
      obtain ⟨hg1, hoth1, hcase⟩ :=
        releaseOneKey_other cfg u tT.id hne ready m kp hg
      rcases hP : LockManager.releaseOneKey cfg u (ready, m) kp with ⟨ready₁, m₁⟩
      rw [hP] at hg1 hoth1 hcase
      simp only at hg1 hoth1 hcase
      rcases hcase with ⟨hwas, hh1, hw1, hcnt1, hrdy1⟩ | ⟨hh1, hw1, hcnt1, hrdy1⟩
      · -- promoted on this key
        have hkmem : kp.1 ∈ (extractKeys cfg tT).map Prod.fst := hwk kp.1 hwas
        have hWacc := numWaiting_update_key cfg tT m m₁ kp.1 hnd hoth1
        rw [if_pos ⟨hkmem, hwas⟩, if_neg (fun hc => hw1 hc.2)] at hWacc
        -- hWacc : numWaiting m₁ + 1 = numWaiting m + 0
        have hwk1 : ∀ k, tT.id ∈ (m₁.lockTable k).waiters →
            k ∈ (extractKeys cfg tT).map Prod.fst := by
          intro k hk
          by_cases hkk : k = kp.1
          · exact hkk ▸ hkmem
          · exact hwk k (by rwa [hoth1 k hkk] at hk)
        obtain ⟨ig, iw, ihh, iWle, icnt, irdy⟩ := ih ready₁ m₁ hg1 hwk1
        refine ⟨ig, ?_, ?_, by omega, by omega, ?_⟩
        · intro k hk
          by_cases hkk : k = kp.1
          · subst hkk
            exact absurd (iw _ hk) hw1
          · have hk2 := iw k hk
            rwa [hoth1 k hkk] at hk2
        · intro k
          by_cases hkk : k = kp.1
          · subst hkk
            rw [ihh kp.1]
            constructor
            · intro _
              refine Or.inr ⟨hwas, ?_⟩
              intro hcontra
              exact hw1 (iw _ hcontra)
            · intro _
              exact Or.inl hh1
          · rw [ihh k, hoth1 k hkk]
        · rw [irdy, hrdy1]
          constructor
          · rintro ((h | h) | ⟨h1, h2⟩)
            · exact Or.inl h
            · refine Or.inr ⟨?_, by omega⟩
              omega
            · exact Or.inr ⟨h1, by omega⟩
          · rintro (h | ⟨h1, h2⟩)
            · exact Or.inl (Or.inl h)
            · by_cases hc : m.numLocksWaited tT.id - 1 = 0
              · exact Or.inl (Or.inr hc)
              · exact Or.inr ⟨h1, by omega⟩
      · -- untouched on this key
        have hW1 : numWaiting cfg tT m₁ = numWaiting cfg tT m := by
          have hWacc := numWaiting_update_key cfg tT m m₁ kp.1 hnd hoth1
          have hiff : (kp.1 ∈ (extractKeys cfg tT).map Prod.fst ∧
              tT.id ∈ (m₁.lockTable kp.1).waiters) ↔
              (kp.1 ∈ (extractKeys cfg tT).map Prod.fst ∧
              tT.id ∈ (m.lockTable kp.1).waiters) := and_congr_right (fun _ => hw1)
          rw [if_congr hiff rfl rfl] at hWacc
          omega
        have hwk1 : ∀ k, tT.id ∈ (m₁.lockTable k).waiters →
            k ∈ (extractKeys cfg tT).map Prod.fst := by
          intro k hk
          by_cases hkk : k = kp.1
          · subst hkk
            exact hwk kp.1 (hw1.mp hk)
          · exact hwk k (by rwa [hoth1 k hkk] at hk)
        obtain ⟨ig, iw, ihh, iWle, icnt, irdy⟩ := ih ready₁ m₁ hg1 hwk1
        refine ⟨ig, ?_, ?_, by omega, by omega, ?_⟩
        · intro k hk
          by_cases hkk : k = kp.1
          · subst hkk
            exact hw1.mp (iw _ hk)
          · have hk2 := iw k hk
            rwa [hoth1 k hkk] at hk2
        · intro k
          by_cases hkk : k = kp.1
          · subst hkk
            rw [ihh kp.1, hh1, hw1]
          · rw [ihh k, hoth1 k hkk]
        · rw [irdy, hrdy1, hcnt1]


theorem runTrace_append (cfg : Config) (m : LockManager) (l₁ l₂ : List LMOp) :
    runTrace cfg m (l₁ ++ l₂)
      = ((runTrace cfg (runTrace cfg m l₁).1 l₂).1,
         (runTrace cfg m l₁).2 ∪ (runTrace cfg (runTrace cfg m l₁).1 l₂).2) := by
  induction l₁ generalizing m with
  | nil =>
      simp only [List.nil_append, runTrace]
      rw [Finset.empty_union]
  | cons op l₁ ih =>
      simp only [List.cons_append, runTrace, List.append_eq]
      rw [ih]
      simp only [runTrace]
      rw [Finset.union_assoc]

/-- The key loop of the tracked transaction's own `AcquireLocks`, started
while it is absent from all its entries: it ends holder or waiter on each of
its keys (exclusively), other entries and other counts are untouched, and
its count drops by one per key it now holds. -/
theorem acquireFold_tracked (t : TxnId) (ks : List (Key × LockMode))
    (m : LockManager) (hg : globalInv m) (hnd : (ks.map Prod.fst).Nodup)
    (habs : ∀ kp ∈ ks,
      t ∉ (m.lockTable kp.1).holders ∧ t ∉ (m.lockTable kp.1).waiters)
    (hmode : ∀ kp ∈ ks, kp.2 = LockMode.READ ∨ kp.2 = LockMode.WRITE) :
    globalInv (ks.foldl (fun m kp => m.acquireOneKey t kp) m) ∧
    (∀ k, k ∉ ks.map Prod.fst →
      (ks.foldl (fun m kp => m.acquireOneKey t kp) m).lockTable k
        = m.lockTable k) ∧
    (∀ x, x ≠ t →
      (ks.foldl (fun m kp => m.acquireOneKey t kp) m).numLocksWaited x
        = m.numLocksWaited x) ∧
    (∀ kp ∈ ks,
      (t ∈ (((ks.foldl (fun m kp => m.acquireOneKey t kp) m)).lockTable kp.1).holders ∧
       t ∉ (((ks.foldl (fun m kp => m.acquireOneKey t kp) m)).lockTable kp.1).waiters) ∨
      (t ∉ (((ks.foldl (fun m kp => m.acquireOneKey t kp) m)).lockTable kp.1).holders ∧
       t ∈ (((ks.foldl (fun m kp => m.acquireOneKey t kp) m)).lockTable kp.1).waiters)) ∧
    (ks.foldl (fun m kp => m.acquireOneKey t kp) m).numLocksWaited t
      = m.numLocksWaited t - (ks.length : Int)
        + ((ks.filter (fun kp =>
            t ∈ (((ks.foldl (fun m kp => m.acquireOneKey t kp) m)).lockTable kp.1).waiters)).length : Int) := by
  induction ks generalizing m with
  | nil =>
      refine ⟨hg, fun k _ => rfl, fun x _ => rfl,
        fun kp h => absurd h (List.not_mem_nil kp), ?_⟩
      simp
  | cons kp ks' ih =>
      simp only [List.foldl_cons]
      rw [List.map_cons, List.nodup_cons] at hnd
      have hknotin : kp.1 ∉ ks'.map Prod.fst := hnd.1
      have hnd' : (ks'.map Prod.fst).Nodup := hnd.2
      obtain ⟨hg1, hoth1, hcnt1, hstep⟩ :=
        acquireOneKey_tracked t m kp hg (habs kp (List.mem_cons_self kp ks'))
          (hmode kp (List.mem_cons_self kp ks'))
      have habs' : ∀ kp' ∈ ks',
          t ∉ ((m.acquireOneKey t kp).lockTable kp'.1).holders ∧
          t ∉ ((m.acquireOneKey t kp).lockTable kp'.1).waiters := by
        intro kp' h
        have hne : kp'.1 ≠ kp.1 := by
          intro hc
          exact hknotin (hc ▸ List.mem_map_of_mem Prod.fst h)
        rw [hoth1 kp'.1 hne]
        exact habs kp' (List.mem_cons_of_mem kp h)
      have hmode' : ∀ kp' ∈ ks', kp'.2 = LockMode.READ ∨ kp'.2 = LockMode.WRITE :=
        fun kp' h => hmode kp' (List.mem_cons_of_mem kp h)
      obtain ⟨ig, ioth, icnt, ixor, icount⟩ := ih (m.acquireOneKey t kp) hg1 hnd' habs' hmode'
      have hfin_kp : (ks'.foldl (fun m kp => m.acquireOneKey t kp)
          (m.acquireOneKey t kp)).lockTable kp.1
          = (m.acquireOneKey t kp).lockTable kp.1 := ioth kp.1 hknotin
      refine ⟨ig, ?_, ?_, ?_, ?_⟩
      · intro k hk
        simp only [List.map_cons, List.mem_cons, not_or] at hk
        rw [ioth k hk.2, hoth1 k hk.1]
      · intro x hx
        rw [icnt x hx, hcnt1 x hx]
      · intro kp' h
        rcases List.mem_cons.mp h with rfl | h
        · rw [hfin_kp]
          rcases hstep with ⟨h1, h2, _⟩ | ⟨h1, h2, _⟩
          · exact Or.inl ⟨h1, h2⟩
          · exact Or.inr ⟨h1, h2⟩
        · exact ixor kp' h
      · rcases hstep with ⟨-, hw, hc⟩ | ⟨-, hw, hc⟩
        · rw [List.filter_cons_of_neg (by simp [hfin_kp, hw])]
          rw [icount, hc]
          simp only [List.length_cons]
          push_cast
          omega
        · rw [List.filter_cons_of_pos (by simp [hfin_kp, hw])]
          rw [icount, hc]
          simp only [List.length_cons]
          push_cast
          omega


theorem lm_eta (m : LockManager) :
    ({ lockTable := m.lockTable, numLocksWaited := m.numLocksWaited } : LockManager) = m := rfl

/-- The tracked transaction's own `AcquireLocks` call, made while it is
absent from the table: afterwards it is placed on exactly its keys, its
count becomes the old count minus the number of keys plus the number it
still waits on, and the call returns true exactly when that count is
zero. -/
theorem acquireLocks_tracked (cfg : Config) (tT : Txn) (m : LockManager)
    (hg : globalInv m) (hkeys : extractKeys cfg tT ≠ [])
    (hnd : ((extractKeys cfg tT).map Prod.fst).Nodup)
    (habs : absentTxn tT.id m) :
    globalInv (m.acquireLocks cfg tT).2 ∧
    placedTxn cfg tT (m.acquireLocks cfg tT).2 ∧
    (∀ x, x ≠ tT.id →
      (m.acquireLocks cfg tT).2.numLocksWaited x = m.numLocksWaited x) ∧
    (m.acquireLocks cfg tT).2.numLocksWaited tT.id
      = m.numLocksWaited tT.id - ((extractKeys cfg tT).length : Int)
        + (numWaiting cfg tT (m.acquireLocks cfg tT).2 : Int) ∧
    ((m.acquireLocks cfg tT).1 = true ↔
      (m.acquireLocks cfg tT).2.numLocksWaited tT.id = 0) := by
  obtain ⟨ig, ioth, icnt, ixor, icount⟩ :=
    acquireFold_tracked tT.id (extractKeys cfg tT) m hg hnd
      (fun kp _ => habs kp.1) (extractKeys_mode cfg tT)
  have hWF : numWaiting cfg tT
      ((extractKeys cfg tT).foldl (fun m kp => m.acquireOneKey tT.id kp) m)
    = ((extractKeys cfg tT).filter (fun kp => tT.id ∈
        (((extractKeys cfg tT).foldl (fun m kp => m.acquireOneKey tT.id kp) m).lockTable kp.1).waiters)).length := rfl
  unfold LockManager.acquireLocks
  simp only [if_neg hkeys]
  by_cases hz : ((extractKeys cfg tT).foldl
      (fun m kp => m.acquireOneKey tT.id kp) m).numLocksWaited tT.id = 0
  · have hupd : Function.update
        ((extractKeys cfg tT).foldl
          (fun m kp => m.acquireOneKey tT.id kp) m).numLocksWaited tT.id 0
      = ((extractKeys cfg tT).foldl
          (fun m kp => m.acquireOneKey tT.id kp) m).numLocksWaited :=
      hz ▸ Function.update_eq_self tT.id _
    simp only [if_pos hz, hupd, lm_eta]
    refine ⟨ig, ⟨ixor, ?_⟩, icnt, ?_, by simp [hz]⟩
    · intro k hk
      rw [ioth k hk]
      exact habs k
    · rw [hWF]
      omega
  · simp only [if_neg hz]
    refine ⟨ig, ⟨ixor, ?_⟩, icnt, ?_, by simp [hz]⟩
    · intro k hk
      rw [ioth k hk]
      exact habs k
    · rw [hWF]
      omega

/-- Another transaction's whole acquire loop leaves the tracked
transaction's positions and count untouched. -/
theorem acquireFold_other (u t : TxnId) (hne : t ≠ u)
    (ks : List (Key × LockMode)) (m : LockManager) (hg : globalInv m) :
    globalInv (ks.foldl (fun m kp => m.acquireOneKey u kp) m) ∧
    (∀ k, (t ∈ ((ks.foldl (fun m kp => m.acquireOneKey u kp) m).lockTable k).holders ↔
            t ∈ (m.lockTable k).holders) ∧
          (t ∈ ((ks.foldl (fun m kp => m.acquireOneKey u kp) m).lockTable k).waiters ↔
            t ∈ (m.lockTable k).waiters)) ∧
    (ks.foldl (fun m kp => m.acquireOneKey u kp) m).numLocksWaited t
      = m.numLocksWaited t := by
  induction ks generalizing m with
  | nil => exact ⟨hg, fun k => ⟨Iff.rfl, Iff.rfl⟩, rfl⟩
  | cons kp ks' ih =>
      simp only [List.foldl_cons]
      obtain ⟨hg1, hmem1, hcnt1⟩ := acquireOneKey_other u t hne m kp hg
      obtain ⟨ig, imem, icnt⟩ := ih (m.acquireOneKey u kp) hg1
      refine ⟨ig, ?_, by rw [icnt, hcnt1]⟩
      intro k
      exact ⟨(imem k).1.trans (hmem1 k).1, (imem k).2.trans (hmem1 k).2⟩

theorem registerTxn_other (cfg : Config) (uT : Txn) (m : LockManager)
    (x : TxnId) (hx : x ≠ uT.id) :
    (m.registerTxn cfg uT).2.lockTable = m.lockTable ∧
    (m.registerTxn cfg uT).2.numLocksWaited x = m.numLocksWaited x := by
  unfold LockManager.registerTxn
  by_cases hk : extractKeys cfg uT = []
  · rw [if_pos hk]
    exact ⟨rfl, rfl⟩
  · rw [if_neg hk]
    by_cases hc : m.numLocksWaited uT.id + ((extractKeys cfg uT).length : Int) = 0
    · rw [if_pos hc]
      exact ⟨rfl, Function.update_noteq hx 0 m.numLocksWaited⟩
    · rw [if_neg hc]
      exact ⟨rfl, Function.update_noteq hx _ m.numLocksWaited⟩

/-- Another transaction's `AcquireLocks` call leaves the tracked
transaction's positions and count untouched, and keeps the invariant. -/
theorem acquireLocks_other (cfg : Config) (uT : Txn) (m : LockManager)
    (t : TxnId) (hne : t ≠ uT.id) (hg : globalInv m) :
    globalInv (m.acquireLocks cfg uT).2 ∧
    (∀ k, (t ∈ ((m.acquireLocks cfg uT).2.lockTable k).holders ↔
            t ∈ (m.lockTable k).holders) ∧
          (t ∈ ((m.acquireLocks cfg uT).2.lockTable k).waiters ↔
            t ∈ (m.lockTable k).waiters)) ∧
    (m.acquireLocks cfg uT).2.numLocksWaited t = m.numLocksWaited t := by
  obtain ⟨fg, fmem, fcnt⟩ := acquireFold_other uT.id t hne (extractKeys cfg uT) m hg
  unfold LockManager.acquireLocks
  by_cases hk : extractKeys cfg uT = []
  · rw [if_pos hk]
    exact ⟨hg, fun k => ⟨Iff.rfl, Iff.rfl⟩, rfl⟩
  · rw [if_neg hk]
    by_cases hz : ((extractKeys cfg uT).foldl
        (fun m kp => m.acquireOneKey uT.id kp) m).numLocksWaited uT.id = 0
    · have hupd : Function.update
          ((extractKeys cfg uT).foldl
            (fun m kp => m.acquireOneKey uT.id kp) m).numLocksWaited uT.id 0
        = ((extractKeys cfg uT).foldl
            (fun m kp => m.acquireOneKey uT.id kp) m).numLocksWaited :=
        hz ▸ Function.update_eq_self uT.id _
      simp only [if_pos hz, hupd, lm_eta]
      exact ⟨fg, fmem, fcnt⟩
    · simp only [if_neg hz]
      exact ⟨fg, fmem, fcnt⟩

/-- Another transaction's `ReleaseLocks` call, as seen by the tracked
transaction: its waiterships only shrink, it gains holderships exactly on
keys it stopped waiting on, its count drops by the number of such keys, and
it appears in the returned ready set exactly when its count crosses zero. -/
theorem releaseLocks_other (cfg : Config) (tT uT : Txn) (hne : tT.id ≠ uT.id)
    (hnd : ((extractKeys cfg tT).map Prod.fst).Nodup)
    (m : LockManager) (hg : globalInv m)
    (hwk : ∀ k, tT.id ∈ (m.lockTable k).waiters →
      k ∈ (extractKeys cfg tT).map Prod.fst) :
    globalInv (m.releaseLocks cfg uT).2 ∧
    (∀ k, tT.id ∈ ((m.releaseLocks cfg uT).2.lockTable k).waiters →
      tT.id ∈ (m.lockTable k).waiters) ∧
    (∀ k, tT.id ∈ ((m.releaseLocks cfg uT).2.lockTable k).holders ↔
      tT.id ∈ (m.lockTable k).holders ∨
      (tT.id ∈ (m.lockTable k).waiters ∧
        tT.id ∉ ((m.releaseLocks cfg uT).2.lockTable k).waiters)) ∧
    numWaiting cfg tT (m.releaseLocks cfg uT).2 ≤ numWaiting cfg tT m ∧
    (m.releaseLocks cfg uT).2.numLocksWaited tT.id
      = m.numLocksWaited tT.id
        - ((numWaiting cfg tT m : Int)
           - (numWaiting cfg tT (m.releaseLocks cfg uT).2 : Int)) ∧
    (tT.id ∈ (m.releaseLocks cfg uT).1 ↔
      ((m.releaseLocks cfg uT).2.numLocksWaited tT.id ≤ 0 ∧
       0 < m.numLocksWaited tT.id)) := by
  obtain ⟨fg, fw, fh, fW, fcnt, frdy⟩ :=
    releaseFold_spec cfg tT uT.id hne hnd (extractKeys cfg uT) ∅ m hg hwk
  unfold LockManager.releaseLocks
  rcases hF : (extractKeys cfg uT).foldl (LockManager.releaseOneKey cfg uT.id)
      (∅, m) with ⟨ready₁, m₁⟩
  rw [hF] at fg fw fh fW fcnt frdy
  simp only at fg fw fh fW fcnt frdy
  simp only [hF]
  refine ⟨fg, fw, fh, fW, ?_, ?_⟩
  · show Function.update m₁.numLocksWaited uT.id 0 tT.id
      = m.numLocksWaited tT.id
        - ((numWaiting cfg tT m : Int) - (numWaiting cfg tT m₁ : Int))
    rw [Function.update_noteq hne]
    exact fcnt
  · show tT.id ∈ ready₁ ↔
      (Function.update m₁.numLocksWaited uT.id 0 tT.id ≤ 0 ∧
       0 < m.numLocksWaited tT.id)
    rw [Function.update_noteq hne, frdy]
    simp

/-- One public call by another transaction, as seen by the tracked
transaction: waiterships shrink, holderships are gained exactly where it
stops waiting, the count drops with the waiting-key count, and the call
signals the tracked transaction ready exactly when its count crosses
zero. -/
theorem lmStep_other (cfg : Config) (tT : Txn) (op : LMOp)
    (hne : op.txnId ≠ tT.id)
    (hnd : ((extractKeys cfg tT).map Prod.fst).Nodup)
    (m : LockManager) (hg : globalInv m)
    (hwk : ∀ k, tT.id ∈ (m.lockTable k).waiters →
      k ∈ (extractKeys cfg tT).map Prod.fst) :
    globalInv (lmStep cfg m op).1 ∧
    (∀ k, tT.id ∈ ((lmStep cfg m op).1.lockTable k).waiters →
      tT.id ∈ (m.lockTable k).waiters) ∧
    (∀ k, tT.id ∈ ((lmStep cfg m op).1.lockTable k).holders ↔
      tT.id ∈ (m.lockTable k).holders ∨
      (tT.id ∈ (m.lockTable k).waiters ∧
        tT.id ∉ ((lmStep cfg m op).1.lockTable k).waiters)) ∧
    numWaiting cfg tT (lmStep cfg m op).1 ≤ numWaiting cfg tT m ∧
    (lmStep cfg m op).1.numLocksWaited tT.id
      = m.numLocksWaited tT.id
        - ((numWaiting cfg tT m : Int)
           - (numWaiting cfg tT (lmStep cfg m op).1 : Int)) ∧
    (tT.id ∈ (lmStep cfg m op).2 ↔
      ((lmStep cfg m op).1.numLocksWaited tT.id ≤ 0 ∧
       0 < m.numLocksWaited tT.id)) := by
  cases op with
  | reg uT =>
      have hne' : tT.id ≠ uT.id := fun h => hne h.symm
      obtain ⟨htab, hcnt⟩ := registerTxn_other cfg uT m tT.id hne'
      rcases hP : m.registerTxn cfg uT with ⟨ok, m₂⟩
      rw [hP] at htab hcnt
      simp only at htab hcnt
      have hg₂ : globalInv m₂ := fun k => by
        rw [show m₂.lockTable = m.lockTable from htab]
        exact hg k
      have hW : numWaiting cfg tT m₂ = numWaiting cfg tT m :=
        numWaiting_congr cfg tT m m₂ (fun kp _ => by rw [htab])
      simp only [lmStep, hP]
      refine ⟨hg₂, fun k h => by rwa [htab] at h, fun k => by rw [htab]; simp,
        by omega, by omega, ?_⟩
      have hns : tT.id ∉ (if ok = true then ({uT.id} : Finset TxnId) else ∅) := by
        cases ok <;> simp [hne']
      simp only [hns, false_iff, not_and, not_lt]
      intro hle
      omega
  | acq uT =>
      have hne' : tT.id ≠ uT.id := fun h => hne h.symm
      obtain ⟨fg, fmem, fcnt⟩ := acquireLocks_other cfg uT m tT.id hne' hg
      rcases hP : m.acquireLocks cfg uT with ⟨ok, m₂⟩
      rw [hP] at fg fmem fcnt
      simp only at fg fmem fcnt
      have hW : numWaiting cfg tT m₂ = numWaiting cfg tT m :=
        numWaiting_congr cfg tT m m₂ (fun kp _ => (fmem kp.1).2)
      simp only [lmStep, hP]
      refine ⟨fg, fun k h => (fmem k).2.mp h, fun k => ?_, by omega, by omega, ?_⟩
      · rw [(fmem k).1]
        constructor
        · exact Or.inl
        · rintro (h | ⟨h1, h2⟩)
          · exact h
          · exact absurd ((fmem k).2.mpr h1) h2
      · have hns : tT.id ∉ (if ok = true then ({uT.id} : Finset TxnId) else ∅) := by
          cases ok <;> simp [hne']
        simp only [hns, false_iff, not_and, not_lt]
        intro hle
        omega
  | rel uT =>
      have hne' : tT.id ≠ uT.id := fun h => hne h.symm
      obtain ⟨fg, fw, fh, fW, fcnt, frdy⟩ :=
        releaseLocks_other cfg tT uT hne' hnd m hg hwk
      rcases hP : m.releaseLocks cfg uT with ⟨ready₂, m₂⟩
      rw [hP] at fg fw fh fW fcnt frdy
      simp only at fg fw fh fW fcnt frdy
      simp only [lmStep, hP]
      exact ⟨fg, fw, fh, fW, fcnt, frdy⟩

/-- A whole run of calls by other transactions, as seen by the tracked
transaction (same shape as one step, with the ready signals collected
over the run). -/
theorem runTrace_other (cfg : Config) (tT : Txn) (ops : List LMOp)
    (hops : ∀ op ∈ ops, op.txnId ≠ tT.id)
    (hnd : ((extractKeys cfg tT).map Prod.fst).Nodup)
    (m : LockManager) (hg : globalInv m)
    (hwk : ∀ k, tT.id ∈ (m.lockTable k).waiters →
      k ∈ (extractKeys cfg tT).map Prod.fst) :
    globalInv (runTrace cfg m ops).1 ∧
    (∀ k, tT.id ∈ ((runTrace cfg m ops).1.lockTable k).waiters →
      tT.id ∈ (m.lockTable k).waiters) ∧
    (∀ k, tT.id ∈ ((runTrace cfg m ops).1.lockTable k).holders ↔
      tT.id ∈ (m.lockTable k).holders ∨
      (tT.id ∈ (m.lockTable k).waiters ∧
        tT.id ∉ ((runTrace cfg m ops).1.lockTable k).waiters)) ∧
    numWaiting cfg tT (runTrace cfg m ops).1 ≤ numWaiting cfg tT m ∧
    (runTrace cfg m ops).1.numLocksWaited tT.id
      = m.numLocksWaited tT.id
        - ((numWaiting cfg tT m : Int)
           - (numWaiting cfg tT (runTrace cfg m ops).1 : Int)) ∧
    (tT.id ∈ (runTrace cfg m ops).2 ↔
      ((runTrace cfg m ops).1.numLocksWaited tT.id ≤ 0 ∧
       0 < m.numLocksWaited tT.id)) := by
  induction ops generalizing m with
  | nil =>
      simp only [runTrace]
      refine ⟨hg, fun k h => h, fun k => by simp, le_refl _, by omega, ?_⟩
      simp only [Finset.not_mem_empty, false_iff, not_and, not_lt]
      intro hle
      omega
  | cons op ops ih =>
      obtain ⟨sg, sw, sh, sW, scnt, srdy⟩ :=
        lmStep_other cfg tT op (hops op (List.mem_cons_self op ops)) hnd m hg hwk
      have hops' : ∀ o ∈ ops, o.txnId ≠ tT.id :=
        fun o h => hops o (List.mem_cons_of_mem op h)
      rcases hS : lmStep cfg m op with ⟨m₁, sig₁⟩
      rw [hS] at sg sw sh sW scnt srdy
      simp only at sg sw sh sW scnt srdy
      have hwk' : ∀ k, tT.id ∈ (m₁.lockTable k).waiters →
          k ∈ (extractKeys cfg tT).map Prod.fst :=
        fun k h => hwk k (sw k h)
      obtain ⟨ig, iw, ihold, iW, icnt, irdy⟩ := ih hops' m₁ sg hwk'
      rcases hR : runTrace cfg m₁ ops with ⟨m₂, sigs⟩
      rw [hR] at ig iw ihold iW icnt irdy
      simp only at ig iw ihold iW icnt irdy
      simp only [runTrace, hS, hR]
      refine ⟨ig, fun k h => sw k (iw k h), fun k => ?_, by omega, by omega, ?_⟩
      · rw [ihold k, sh k]
        constructor
        · rintro ((h | ⟨h1, h2⟩) | ⟨h1, h2⟩)
          · exact Or.inl h
          · exact Or.inr ⟨h1, fun hc => h2 (iw k hc)⟩
          · exact Or.inr ⟨sw k h1, h2⟩
        · rintro (h | ⟨h1, h2⟩)
          · exact Or.inl (Or.inl h)
          · by_cases hmid : tT.id ∈ (m₁.lockTable k).waiters
            · exact Or.inr ⟨hmid, h2⟩
            · exact Or.inl (Or.inr ⟨h1, hmid⟩)
      · rw [Finset.mem_union, srdy, irdy]
        omega

theorem runTrace_cons_state (cfg : Config) (m : LockManager) (op : LMOp)
    (ops : List LMOp) :
    (runTrace cfg m (op :: ops)).1 = (runTrace cfg (lmStep cfg m op).1 ops).1 := by
  rcases hS : lmStep cfg m op with ⟨m₁, s₁⟩
  rcases hR : runTrace cfg m₁ ops with ⟨m₂, s₂⟩
  simp only [runTrace, hS, hR]

theorem runTrace_cons_sig (cfg : Config) (m : LockManager) (op : LMOp)
    (ops : List LMOp) :
    (runTrace cfg m (op :: ops)).2
      = (lmStep cfg m op).2 ∪ (runTrace cfg (lmStep cfg m op).1 ops).2 := by
  rcases hS : lmStep cfg m op with ⟨m₁, s₁⟩
  rcases hR : runTrace cfg m₁ ops with ⟨m₂, s₂⟩
  simp only [runTrace, hS, hR]

theorem numWaiting_eq_zero_of_absent (cfg : Config) (tT : Txn) (m : LockManager)
    (h : absentTxn tT.id m) : numWaiting cfg tT m = 0 := by
  unfold numWaiting
  have : (extractKeys cfg tT).filter
      (fun kp => tT.id ∈ (m.lockTable kp.1).waiters) = [] :=
    List.filter_eq_nil_iff.mpr (fun kp _ => by simpa using (h kp.1).2)
  rw [this]
  rfl

/-- The tracked transaction's own `RegisterTxn` call: the table is
untouched, its count grows by its key count, and the call signals it ready
exactly when the grown count is zero. -/
theorem lmStep_reg_self (cfg : Config) (tT : Txn) (m : LockManager)
    (hkeys : extractKeys cfg tT ≠ []) :
    (lmStep cfg m (.reg tT)).1.lockTable = m.lockTable ∧
    (lmStep cfg m (.reg tT)).1.numLocksWaited tT.id
      = m.numLocksWaited tT.id + ((extractKeys cfg tT).length : Int) ∧
    (tT.id ∈ (lmStep cfg m (.reg tT)).2 ↔
      m.numLocksWaited tT.id + ((extractKeys cfg tT).length : Int) = 0) := by
  obtain ⟨htab, hcnt, hoth, hok⟩ := registerTxn_spec cfg tT m hkeys
  rcases hP : m.registerTxn cfg tT with ⟨ok, m₂⟩
  rw [hP] at htab hcnt hoth hok
  simp only at htab hcnt hoth hok
  simp only [lmStep, hP]
  refine ⟨htab, hcnt, ?_⟩
  rw [← hok]
  cases ok <;> simp

/-- The tracked transaction's own `AcquireLocks` call, made while absent:
it becomes placed, its count becomes the old count minus its key count plus
the keys still waited on, and the call signals it ready exactly when the new
count is zero. -/
theorem lmStep_acq_self (cfg : Config) (tT : Txn) (m : LockManager)
    (hg : globalInv m) (hkeys : extractKeys cfg tT ≠ [])
    (hnd : ((extractKeys cfg tT).map Prod.fst).Nodup)
    (habs : absentTxn tT.id m) :
    globalInv (lmStep cfg m (.acq tT)).1 ∧
    placedTxn cfg tT (lmStep cfg m (.acq tT)).1 ∧
    (lmStep cfg m (.acq tT)).1.numLocksWaited tT.id
      = m.numLocksWaited tT.id - ((extractKeys cfg tT).length : Int)
        + (numWaiting cfg tT (lmStep cfg m (.acq tT)).1 : Int) ∧
    (tT.id ∈ (lmStep cfg m (.acq tT)).2 ↔
      (lmStep cfg m (.acq tT)).1.numLocksWaited tT.id = 0) := by
  obtain ⟨ag, ap, -, acnt, aok⟩ := acquireLocks_tracked cfg tT m hg hkeys hnd habs
  rcases hP : m.acquireLocks cfg tT with ⟨ok, m₂⟩
  rw [hP] at ag ap acnt aok
  simp only at ag ap acnt aok
  simp only [lmStep, hP]
  refine ⟨ag, ap, acnt, ?_⟩
  rw [← aok]
  cases ok <;> simp

/-- A run of other transactions' calls keeps an absent transaction absent,
with its count unchanged. -/
theorem runTrace_absent (cfg : Config) (tT : Txn) (ops : List LMOp)
    (hops : ∀ op ∈ ops, op.txnId ≠ tT.id)
    (hnd : ((extractKeys cfg tT).map Prod.fst).Nodup)
    (m : LockManager) (hg : globalInv m) (habs : absentTxn tT.id m) :
    globalInv (runTrace cfg m ops).1 ∧
    absentTxn tT.id (runTrace cfg m ops).1 ∧
    (runTrace cfg m ops).1.numLocksWaited tT.id = m.numLocksWaited tT.id := by
  have hwk : ∀ k, tT.id ∈ (m.lockTable k).waiters →
      k ∈ (extractKeys cfg tT).map Prod.fst :=
    fun k hk => absurd hk (habs k).2
  obtain ⟨rg, rw', rh, rW, rcnt, -⟩ := runTrace_other cfg tT ops hops hnd m hg hwk
  have habs' : absentTxn tT.id (runTrace cfg m ops).1 := by
    intro k
    constructor
    · intro hcontra
      rcases (rh k).mp hcontra with h | ⟨h, -⟩
      · exact (habs k).1 h
      · exact (habs k).2 h
    · intro hcontra
      exact (habs k).2 (rw' k hcontra)
  have hW0 : numWaiting cfg tT m = 0 := numWaiting_eq_zero_of_absent cfg tT m habs
  have hW0' : numWaiting cfg tT (runTrace cfg m ops).1 = 0 :=
    Nat.le_zero.mp (hW0 ▸ rW)
  exact ⟨rg, habs', by omega⟩

/-- A run of other transactions' calls keeps a placed transaction placed. -/
theorem runTrace_placed (cfg : Config) (tT : Txn) (ops : List LMOp)
    (hops : ∀ op ∈ ops, op.txnId ≠ tT.id)
    (hnd : ((extractKeys cfg tT).map Prod.fst).Nodup)
    (m : LockManager) (hg : globalInv m) (hp : placedTxn cfg tT m) :
    placedTxn cfg tT (runTrace cfg m ops).1 := by
  have hwk : ∀ k, tT.id ∈ (m.lockTable k).waiters →
      k ∈ (extractKeys cfg tT).map Prod.fst := by
    intro k hk
    by_contra hkn
    exact (hp.2 k hkn).2 hk
  obtain ⟨-, rw', rh, -, -, -⟩ := runTrace_other cfg tT ops hops hnd m hg hwk
  constructor
  · intro kp hkp
    rcases hp.1 kp hkp with ⟨hh, hnw⟩ | ⟨hnh, hw⟩
    · refine Or.inl ⟨(rh kp.1).mpr (Or.inl hh), fun hc => hnw (rw' kp.1 hc)⟩
    · by_cases hw' : tT.id ∈ ((runTrace cfg m ops).1.lockTable kp.1).waiters
      · refine Or.inr ⟨?_, hw'⟩
        intro hcontra
        rcases (rh kp.1).mp hcontra with h | ⟨-, h2⟩
        · exact hnh h
        · exact h2 hw'
      · exact Or.inl ⟨(rh kp.1).mpr (Or.inr ⟨hw, hw'⟩), hw'⟩
  · intro k hk
    constructor
    · intro hcontra
      rcases (rh k).mp hcontra with h | ⟨h, -⟩
      · exact (hp.2 k hk).1 h
      · exact (hp.2 k hk).2 h
    · intro hcontra
      exact (hp.2 k hk).2 (rw' k hcontra)

/-- From a placed state whose count equals its waiting-key count, a run of
other transactions' calls ends with count zero exactly when the count was
already zero or the run signalled the transaction ready. -/
theorem runTrace_placed_ready (cfg : Config) (tT : Txn)
    (hnd : ((extractKeys cfg tT).map Prod.fst).Nodup)
    (c : List LMOp) (hc : ∀ op ∈ c, op.txnId ≠ tT.id)
    (M : LockManager) (hg : globalInv M) (hp : placedTxn cfg tT M)
    (hcnt : M.numLocksWaited tT.id = (numWaiting cfg tT M : Int)) :
    ((runTrace cfg M c).1.numLocksWaited tT.id = 0 ↔
      (M.numLocksWaited tT.id = 0 ∨ tT.id ∈ (runTrace cfg M c).2)) := by
  have hwk : ∀ k, tT.id ∈ (M.lockTable k).waiters →
      k ∈ (extractKeys cfg tT).map Prod.fst := by
    intro k hk
    by_contra hkn
    exact (hp.2 k hkn).2 hk
  obtain ⟨-, -, -, cW, ccnt, crdy⟩ := runTrace_other cfg tT c hc hnd M hg hwk
  rw [crdy]
  omega

/-- Claim C6 (corrected: the transaction must have at least one key in the
local partition — a transaction with no local keys has count zero yet is
never reported ready). For every transaction t with duplicate-free read and
write sets whose `RegisterTxn` and `AcquireLocks` calls each occur exactly
once, in either order, interleaved anywhere with calls of other
transactions: at the end of the run `num_locks_waited[t]` is zero iff t is
ready, i.e. the later of its two calls signalled it ready or a subsequent
call returned it in its ready set. -/
theorem c6_count_zero_iff_ready (cfg : Config) (tT : Txn)
    (hkeys : extractKeys cfg tT ≠ [])
    (hr : tT.readSet.Nodup) (hwset : tT.writeSet.Nodup)
    (a b c : List LMOp) (op₁ op₂ : LMOp)
    (horder : (op₁ = LMOp.reg tT ∧ op₂ = LMOp.acq tT) ∨
              (op₁ = LMOp.acq tT ∧ op₂ = LMOp.reg tT))
    (ha : ∀ op ∈ a, op.txnId ≠ tT.id)
    (hb : ∀ op ∈ b, op.txnId ≠ tT.id)
    (hc : ∀ op ∈ c, op.txnId ≠ tT.id) :
    ((runTrace cfg (runTrace cfg LockManager.init (a ++ op₁ :: b)).1
        (op₂ :: c)).1.numLocksWaited tT.id = 0 ↔
      tT.id ∈ (runTrace cfg (runTrace cfg LockManager.init (a ++ op₁ :: b)).1
        (op₂ :: c)).2) := by
  have hnd : ((extractKeys cfg tT).map Prod.fst).Nodup :=
    extractKeys_fst_nodup cfg tT hr hwset
  have habs0 : absentTxn tT.id LockManager.init :=
    fun k => ⟨Finset.not_mem_empty _, Finset.not_mem_empty _⟩
  obtain ⟨ga, habsA, hcntA⟩ :=
    runTrace_absent cfg tT a ha hnd LockManager.init globalInv_init habs0
  have hcntA0 : (runTrace cfg LockManager.init a).1.numLocksWaited tT.id = 0 := by
    rw [hcntA]
    rfl
  have hMab : (runTrace cfg LockManager.init (a ++ op₁ :: b)).1
      = (runTrace cfg
          (lmStep cfg (runTrace cfg LockManager.init a).1 op₁).1 b).1 := by
    rw [runTrace_append, runTrace_cons_state]
  rw [hMab, runTrace_cons_state, runTrace_cons_sig, Finset.mem_union]
  rcases horder with ⟨h1, h2⟩ | ⟨h1, h2⟩
  · subst h1
    subst h2
    obtain ⟨rtab, rcnt, -⟩ :=
      lmStep_reg_self cfg tT (runTrace cfg LockManager.init a).1 hkeys
    have gB : globalInv
        (lmStep cfg (runTrace cfg LockManager.init a).1 (LMOp.reg tT)).1 := by
      intro k
      rw [rtab]
      exact ga k
    have habsB : absentTxn tT.id
        (lmStep cfg (runTrace cfg LockManager.init a).1 (LMOp.reg tT)).1 := by
      intro k
      rw [rtab]
      exact habsA k
    obtain ⟨gMb, habsMb, hcntMb⟩ := runTrace_absent cfg tT b hb hnd _ gB habsB
    obtain ⟨g2, hp2, hcnt2, hsig2⟩ :=
      lmStep_acq_self cfg tT
        (runTrace cfg
          (lmStep cfg (runTrace cfg LockManager.init a).1 (LMOp.reg tT)).1 b).1
        gMb hkeys hnd habsMb
    have hcnt2' : (lmStep cfg
        (runTrace cfg
          (lmStep cfg (runTrace cfg LockManager.init a).1 (LMOp.reg tT)).1 b).1
        (LMOp.acq tT)).1.numLocksWaited tT.id
        = (numWaiting cfg tT (lmStep cfg
            (runTrace cfg
              (lmStep cfg (runTrace cfg LockManager.init a).1 (LMOp.reg tT)).1 b).1
            (LMOp.acq tT)).1 : Int) := by
      rw [hcnt2, hcntMb, rcnt, hcntA0]
      omega
    rw [hsig2]
    exact runTrace_placed_ready cfg tT hnd c hc _ g2 hp2 hcnt2'
  · subst h1
    subst h2
    obtain ⟨g1, hp1, hcnt1, -⟩ :=
      lmStep_acq_self cfg tT (runTrace cfg LockManager.init a).1 ga hkeys hnd habsA
    have hwk1 : ∀ k, tT.id ∈
        ((lmStep cfg (runTrace cfg LockManager.init a).1 (LMOp.acq tT)).1.lockTable
          k).waiters → k ∈ (extractKeys cfg tT).map Prod.fst := by
      intro k hk
      by_contra hkn
      exact (hp1.2 k hkn).2 hk
    obtain ⟨gb, bw, bh, bW, bcnt, -⟩ := runTrace_other cfg tT b hb hnd _ g1 hwk1
    have hpb : placedTxn cfg tT
        (runTrace cfg
          (lmStep cfg (runTrace cfg LockManager.init a).1 (LMOp.acq tT)).1 b).1 :=
      runTrace_placed cfg tT b hb hnd _ g1 hp1
    obtain ⟨rtab, rcnt, rsig⟩ :=
      lmStep_reg_self cfg tT
        (runTrace cfg
          (lmStep cfg (runTrace cfg LockManager.init a).1 (LMOp.acq tT)).1 b).1
        hkeys
    have g2 : globalInv (lmStep cfg
        (runTrace cfg
          (lmStep cfg (runTrace cfg LockManager.init a).1 (LMOp.acq tT)).1 b).1
        (LMOp.reg tT)).1 := by
      intro k
      rw [rtab]
      exact gb k
    have hp2 : placedTxn cfg tT (lmStep cfg
        (runTrace cfg
          (lmStep cfg (runTrace cfg LockManager.init a).1 (LMOp.acq tT)).1 b).1
        (LMOp.reg tT)).1 := by
      constructor
      · intro kp hkp
        rw [rtab]
        exact hpb.1 kp hkp
      · intro k hk
        rw [rtab]
        exact hpb.2 k hk
    have hW2 : numWaiting cfg tT (lmStep cfg
        (runTrace cfg
          (lmStep cfg (runTrace cfg LockManager.init a).1 (LMOp.acq tT)).1 b).1
        (LMOp.reg tT)).1
        = numWaiting cfg tT
          (runTrace cfg
            (lmStep cfg (runTrace cfg LockManager.init a).1 (LMOp.acq tT)).1 b).1 :=
      numWaiting_congr cfg tT _ _ (fun kp _ => by rw [rtab])
    have hcnt2' : (lmStep cfg
        (runTrace cfg
          (lmStep cfg (runTrace cfg LockManager.init a).1 (LMOp.acq tT)).1 b).1
        (LMOp.reg tT)).1.numLocksWaited tT.id
        = (numWaiting cfg tT (lmStep cfg
            (runTrace cfg
              (lmStep cfg (runTrace cfg LockManager.init a).1 (LMOp.acq tT)).1 b).1
            (LMOp.reg tT)).1 : Int) := by
      rw [rcnt, hW2, bcnt, hcnt1, hcntA0]
      omega
    have hsig2' : tT.id ∈ (lmStep cfg
        (runTrace cfg
          (lmStep cfg (runTrace cfg LockManager.init a).1 (LMOp.acq tT)).1 b).1
        (LMOp.reg tT)).2 ↔ (lmStep cfg
        (runTrace cfg
          (lmStep cfg (runTrace cfg LockManager.init a).1 (LMOp.acq tT)).1 b).1
        (LMOp.reg tT)).1.numLocksWaited tT.id = 0 :=
      rsig.trans (by omega)
    rw [hsig2']
    exact runTrace_placed_ready cfg tT hnd c hc _ g2 hp2 hcnt2'

/-- A configuration whose local partition holds no keys at all. -/
def cfgNoLocal : Config := ⟨fun _ => false⟩

/-- Transaction 1 reads key 0 (not local under `cfgNoLocal`). -/
def c6Txn : Txn := ⟨1, [0], []⟩

/-- Counterexample to claim C6 as stated: a transaction with no key in the
local partition ends its RegisterTxn-then-AcquireLocks run with
`num_locks_waited = 0`, yet is never reported ready — both calls return
false (the key loops are empty) and no ReleaseLocks ever returns it. -/
theorem c6_counterexample_no_local_keys :
    ¬ (((runTrace cfgNoLocal (runTrace cfgNoLocal LockManager.init
          ([] ++ LMOp.reg c6Txn :: [])).1
          (LMOp.acq c6Txn :: [])).1.numLocksWaited c6Txn.id = 0) ↔
        c6Txn.id ∈ (runTrace cfgNoLocal (runTrace cfgNoLocal LockManager.init
          ([] ++ LMOp.reg c6Txn :: [])).1
          (LMOp.acq c6Txn :: [])).2) := by
  decide

theorem c6_count_zero_iff_ready_witness :
    extractKeys cfgAllLocal c6Txn ≠ [] ∧
    ((runTrace cfgAllLocal (runTrace cfgAllLocal LockManager.init
        ([] ++ LMOp.reg c6Txn :: [])).1
        (LMOp.acq c6Txn :: [])).1.numLocksWaited c6Txn.id = 0 ↔
      c6Txn.id ∈ (runTrace cfgAllLocal (runTrace cfgAllLocal LockManager.init
        ([] ++ LMOp.reg c6Txn :: [])).1
        (LMOp.acq c6Txn :: [])).2) :=
  ⟨by decide,
   c6_count_zero_iff_ready cfgAllLocal c6Txn (by decide) (by decide) (by decide)
     [] [] [] _ _ (Or.inl ⟨rfl, rfl⟩)
     (fun op h => absurd h (List.not_mem_nil op))
     (fun op h => absurd h (List.not_mem_nil op))
     (fun op h => absurd h (List.not_mem_nil op))⟩
end Slog
